import Mathlib

/-!
Shallow embedding of the media-embed-tracer embed-detection and deduplication
pipeline (src/platforms/base.py, bluesky.py, twitter.py, tiktok.py,
instagram.py, facebook.py and src/sheets_manager.py).

Strings are modelled as `List Char`.  Python's regular expressions are
translated pattern-by-pattern into bespoke scanners with `re.search`
(leftmost match) semantics; `re.IGNORECASE` literals are compared through
`lowerEq`.  Network-backed steps (TikTok short-link redirect lookup, Bluesky
DID directory resolution) are modelled as explicit function parameters, as are
the timestamps taken at record construction time.  HTML documents are
modelled as a node tree standing for the BeautifulSoup parse; serialisation
(`str(soup)`) is implemented so that raw-text regex sweeps of the source can
be reproduced.
-/

abbrev Str := List Char

def s2l (s : String) : Str := s.data

/-! Character classes (ASCII, matching the Python predicates used). -/

def isDigitC (c : Char) : Bool := '0' ≤ c && c ≤ '9'

def isUpperC (c : Char) : Bool := 'A' ≤ c && c ≤ 'Z'

def isLowerC (c : Char) : Bool := 'a' ≤ c && c ≤ 'z'

def isAlphaC (c : Char) : Bool := isUpperC c || isLowerC c

def isAlnumC (c : Char) : Bool := isAlphaC c || isDigitC c

/-- Case-insensitive character comparison used for `re.IGNORECASE` literals:
the pattern character `p` matches `c` iff they are equal or ASCII case
variants of each other. -/
def lowerEq (p c : Char) : Bool :=
  p = c || (isLowerC p && isUpperC c && p.toNat = c.toNat + 32)
    || (isUpperC p && isLowerC c && c.toNat = p.toNat + 32)

/-- ASCII lower-casing of one character (Python `str.lower` restricted to
the ASCII inputs arising here). -/
def lowCh (c : Char) : Char :=
  if isUpperC c then Char.ofNat (c.toNat + 32) else c

def pyLower (s : Str) : Str := s.map lowCh

/-- Python `str.strip` whitespace set (ASCII part). -/
def isPyWs (c : Char) : Bool :=
  c = ' ' || c = '\t' || c = '\n' || c = '\r' || c = '\x0b' || c = '\x0c'

def pyStrip (s : Str) : Str :=
  ((s.dropWhile isPyWs).reverse.dropWhile isPyWs).reverse

/-- Split a list at the first occurrence of `c`: `some (before, after)`,
or `none` when `c` does not occur. -/
def splitFirst (c : Char) : Str → Option (Str × Str)
  | [] => none
  | d :: s =>
    if d = c then some ([], s)
    else (splitFirst c s).map (fun p => (d :: p.1, p.2))

/-- Python `a.split(c, 1)` collapsed to a pair: `(s, [])` when `c` is absent. -/
def splitAtChar (c : Char) (s : Str) : Str × Str :=
  match splitFirst c s with
  | some (a, b) => (a, b)
  | none => (s, [])

/-- Python `needle in s` substring test. -/
def hasSubstr (n : Str) : Str → Bool
  | [] => n.isEmpty
  | c :: s => n.isPrefixOf (c :: s) || hasSubstr n s

/-- Python `s.replace("www.", "")`: remove every occurrence of `www.`,
scanning left to right and continuing after each removal. -/
def stripWwwAll : Str → Str
  | 'w' :: 'w' :: 'w' :: '.' :: t => stripWwwAll t
  | c :: t => c :: stripWwwAll t
  | [] => []

/-- Python `s.split(c)` (all fields). -/
def splitOn (c : Char) : Str → List Str
  | [] => [[]]
  | d :: t =>
    if d = c then [] :: splitOn c t
    else
      match splitOn c t with
      | h :: r => (d :: h) :: r
      | [] => [[d]]

/-! Percent decoding, restricted to single-byte ASCII escapes.  Python's
`urllib.parse.unquote` additionally decodes multi-byte UTF-8 escape
sequences; every input reaching it in this development is ASCII. -/

def hexVal (c : Char) : Option Nat :=
  if isDigitC c then some (c.toNat - 48)
  else if 'a' ≤ c && c ≤ 'f' then some (c.toNat - 87)
  else if 'A' ≤ c && c ≤ 'F' then some (c.toNat - 55)
  else none

def unquoteAsciiF : Nat → Str → Str
  | 0, s => s
  | _ + 1, [] => []
  | f + 1, '%' :: h1 :: h2 :: t =>
    (match hexVal h1, hexVal h2 with
     | some a, some b =>
       if a * 16 + b < 128 then Char.ofNat (a * 16 + b) :: unquoteAsciiF f t
       else '%' :: h1 :: unquoteAsciiF f (h2 :: t)
     | _, _ => '%' :: unquoteAsciiF f (h1 :: h2 :: t))
  | f + 1, c :: t => c :: unquoteAsciiF f t

def unquoteAscii (s : Str) : Str := unquoteAsciiF (s.length + 1) s

/-- Python `urllib.parse.unquote_plus`: `+` becomes a space, then unquote. -/
def unquotePlus (s : Str) : Str :=
  unquoteAscii (s.map (fun c => if c = '+' then ' ' else c))

/-! Model of Python `urllib.parse.urlparse` for the component accesses the
source performs (`scheme`, `netloc`, `path`, `query`).  Follows CPython's
`urlsplit`: sanitisation, scheme split at the first `:`, `//`-led netloc
stopping at `/?#`, fragment split at the first `#`, query split at the first
`?`; `urlparse` additionally splits `;params` off the last path segment for
schemes that use parameters. -/

structure UrlParts where
  scheme : Str
  netloc : Str
  path : Str
  params : Str
  query : Str
  fragment : Str
deriving DecidableEq, Repr

def isSchemeChar (c : Char) : Bool := isAlnumC c || c = '+' || c = '-' || c = '.'

def isC0OrSpace (c : Char) : Bool := c.toNat ≤ 32

/-- CPython strips leading/trailing C0-control-or-space characters and removes
every tab, carriage return and newline before parsing. -/
def sanitizeUrl (s : Str) : Str :=
  (((s.dropWhile isC0OrSpace).reverse.dropWhile isC0OrSpace).reverse).filter
    (fun c => c ≠ '\t' && c ≠ '\r' && c ≠ '\n')

def splitScheme (s : Str) : Str × Str :=
  match splitFirst ':' s with
  | some (pre, post) =>
    if !pre.isEmpty
        && (match pre with | c :: _ => isAlphaC c | [] => false)
        && pre.all isSchemeChar
    then (pyLower pre, post) else ([], s)
  | none => ([], s)

def isNetlocEnd (c : Char) : Bool := c = '/' || c = '?' || c = '#'

def splitNetloc (s : Str) : Str × Str :=
  match s with
  | '/' :: '/' :: t => (t.takeWhile (fun c => !isNetlocEnd c), t.dropWhile (fun c => !isNetlocEnd c))
  | _ => ([], s)

/-- CPython `_splitparams`: split `;params` off the last path segment. -/
def splitParams (s : Str) : Str × Str :=
  if s.contains ';' then
    if s.contains '/' then
      let post := (s.reverse.takeWhile (fun c => c ≠ '/')).reverse
      match splitFirst ';' post with
      | some (a, b) => (s.take (s.length - post.length) ++ a, b)
      | none => (s, [])
    else
      match splitFirst ';' s with
      | some (a, b) => (a, b)
      | none => (s, [])
  else (s, [])

def urlsplitM (url : Str) : UrlParts :=
  let u := sanitizeUrl url
  let sp := splitScheme u
  let nl := splitNetloc sp.2
  let fr := splitAtChar '#' nl.2
  let qu := splitAtChar '?' fr.1
  ⟨sp.1, nl.1, qu.1, [], qu.2, fr.2⟩

/-- Schemes from CPython's `uses_params` reachable in this development. -/
def usesParams : List Str :=
  [[], s2l "ftp", s2l "hdl", s2l "prospero", s2l "http", s2l "imap", s2l "https",
   s2l "shttp", s2l "rtsp", s2l "rtsps", s2l "rtspu", s2l "sip", s2l "sips",
   s2l "mms", s2l "sftp", s2l "tel"]

def urlparseM (url : Str) : UrlParts :=
  let r := urlsplitM url
  if usesParams.contains r.scheme && r.path.contains ';' then
    let pp := splitParams r.path
    { r with path := pp.1, params := pp.2 }
  else r

/-! Model of Python `urllib.parse.parse_qs` restricted to the first value of
each key, which is all the source reads (`query[key][0]`).  Modern CPython
splits on `&` only, drops empty fields and fields without `=`, drops empty
values when `keep_blank_values` is false, and percent-plus-decodes names and
values. -/

def qsPairs (qs : Str) : List (Str × Str) :=
  (splitOn '&' qs).filterMap (fun nv =>
    if nv.isEmpty then none
    else
      match splitFirst '=' nv with
      | some (n, v) => if v.isEmpty then none else some (unquotePlus n, unquotePlus v)
      | none => none)

def qsFirst (qs : Str) (key : Str) : Option Str :=
  ((qsPairs qs).find? (fun p => p.1 == key)).map (·.2)

/-! Regex scanners.  Each `...MatchAt` function is an anchored matcher for one
compiled pattern of the source, returning `(group0, rest, groups)`;
`reSearch` supplies `re.search` leftmost-match semantics and `findAllRe`
supplies `re.finditer` non-overlapping scan semantics. -/

def reSearch {α : Type} (m : Str → Option α) : Str → Option α
  | [] => m []
  | c :: s =>
    match m (c :: s) with
    | some r => some r
    | none => reSearch m s

def findAllReAux {α : Type} (m : Str → Option (Str × Str × α)) : Nat → Str → List (Str × α)
  | 0, _ => []
  | _ + 1, [] =>
    (match m [] with
     | some (g0, _, a) => [(g0, a)]
     | none => [])
  | fuel + 1, c :: s =>
    match m (c :: s) with
    | some (g0, rest, a) => (g0, a) :: findAllReAux m fuel rest
    | none => findAllReAux m fuel s

def findAllRe {α : Type} (m : Str → Option (Str × Str × α)) (s : Str) : List (Str × α) :=
  findAllReAux m (s.length + 1) s

/-- Case-insensitive literal: consume text matching the pattern `p`
character-by-character via `lowerEq`, returning the consumed original text
and the remainder. -/
def litCI : Str → Str → Option (Str × Str)
  | [], s => some ([], s)
  | _ :: _, [] => none
  | p :: ps, c :: cs =>
    if lowerEq p c then (litCI ps cs).map (fun r => (c :: r.1, r.2)) else none

/-- Case-sensitive literal prefix (for Python `str.startswith`-style checks
and patterns compiled without `re.IGNORECASE`). -/
def litEx : Str → Str → Option Str
  | [], s => some s
  | _ :: _, [] => none
  | p :: ps, c :: cs => if p = c then litEx ps cs else none

/-- Greedy optional literal, sound here because every use site's following
literal cannot also start the optional text. -/
def optCI (p : Str) (s : Str) : Str × Str :=
  match litCI p s with
  | some r => r
  | none => ([], s)

/-- One-or-more greedy character class `([cls]+)`. -/
def takeWhile1 (p : Char → Bool) (s : Str) : Option (Str × Str) :=
  match s.takeWhile p with
  | [] => none
  | t => some (t, s.dropWhile p)

/-! Bluesky patterns (src/platforms/bluesky.py).
`BSKY_URL_PATTERN = https?://bsky\.app/profile/([^/]+)/post/([a-zA-Z0-9]+)`,
`AT_URI_PATTERN = at://([^/]+)/app\.bsky\.feed\.post/([a-zA-Z0-9]+)`, both
`re.IGNORECASE`; `DID_PATTERN = ^did:plc:[a-zA-Z0-9]+$` case-sensitive. -/

def bskyMatchAt (s : Str) : Option (Str × Str × Str × Str) := do
  let (a1, r1) ← litCI (s2l "http") s
  let (a2, r2) := optCI (s2l "s") r1
  let (a3, r3) ← litCI (s2l "://bsky.app/profile/") r2
  let (h, r4) ← takeWhile1 (fun c => c ≠ '/') r3
  let (a5, r5) ← litCI (s2l "/post/") r4
  let (i, r6) ← takeWhile1 isAlnumC r5
  pure (a1 ++ a2 ++ a3 ++ h ++ a5 ++ i, r6, h, i)

def atMatchAt (s : Str) : Option (Str × Str × Str × Str) := do
  let (a1, r1) ← litCI (s2l "at://") s
  let (h, r2) ← takeWhile1 (fun c => c ≠ '/') r1
  let (a3, r3) ← litCI (s2l "/app.bsky.feed.post/") r2
  let (i, r4) ← takeWhile1 isAlnumC r3
  pure (a1 ++ h ++ a3 ++ i, r4, h, i)

def didMatch (s : Str) : Bool :=
  match litEx (s2l "did:plc:") s with
  | some r => !r.isEmpty && r.all isAlnumC
  | none => false

/-! Twitter pattern (src/platforms/twitter.py).
`TWITTER_URL_PATTERN = https?://(?:twitter\.com|x\.com)/([^/]+)/status/(\d+)`,
`re.IGNORECASE`. -/

def twMatchAt (s : Str) : Option (Str × Str × Str × Str) := do
  let (a1, r1) ← litCI (s2l "http") s
  let (a2, r2) := optCI (s2l "s") r1
  let (a3, r3) ← litCI (s2l "://") r2
  let (a4, r4) ←
    (match litCI (s2l "twitter.com/") r3 with
     | some v => some v
     | none => litCI (s2l "x.com/") r3)
  let (u, r5) ← takeWhile1 (fun c => c ≠ '/') r4
  let (a6, r6) ← litCI (s2l "/status/") r5
  let (d, r7) ← takeWhile1 isDigitC r6
  pure (a1 ++ a2 ++ a3 ++ a4 ++ u ++ a6 ++ d, r7, u, d)

/-! TikTok patterns (src/platforms/tiktok.py).
`TIKTOK_URL_PATTERN = https?://(?:www\.)?tiktok\.com/@([^/]+)/video/(\d+)`,
`TIKTOK_SHORT_PATTERN = https?://(?:vm\.tiktok\.com|vt\.tiktok\.com)/([a-zA-Z0-9]+)`,
both `re.IGNORECASE`. -/

def ttFullMatchAt (s : Str) : Option (Str × Str × Str × Str) := do
  let (a1, r1) ← litCI (s2l "http") s
  let (a2, r2) := optCI (s2l "s") r1
  let (a3, r3) ← litCI (s2l "://") r2
  let (a4, r4) := optCI (s2l "www.") r3
  let (a5, r5) ← litCI (s2l "tiktok.com/@") r4
  let (u, r6) ← takeWhile1 (fun c => c ≠ '/') r5
  let (a7, r7) ← litCI (s2l "/video/") r6
  let (d, r8) ← takeWhile1 isDigitC r7
  pure (a1 ++ a2 ++ a3 ++ a4 ++ a5 ++ u ++ a7 ++ d, r8, u, d)

def ttShortMatchAt (s : Str) : Option (Str × Str × Str) := do
  let (a1, r1) ← litCI (s2l "http") s
  let (a2, r2) := optCI (s2l "s") r1
  let (a3, r3) ← litCI (s2l "://") r2
  let (a4, r4) ←
    (match litCI (s2l "vm.tiktok.com/") r3 with
     | some v => some v
     | none => litCI (s2l "vt.tiktok.com/") r3)
  let (cd, r5) ← takeWhile1 isAlnumC r4
  pure (a1 ++ a2 ++ a3 ++ a4 ++ cd, r5, cd)

/-! Instagram patterns (src/platforms/instagram.py).
`INSTAGRAM_URL_PATTERN =
 https?://(?:www\.)?instagram\.com/(?:p|reel|reels|tv)/([a-zA-Z0-9_-]+)`,
`re.IGNORECASE`.  The alternation is tried in pattern order with
backtracking into the following `/` and code group. -/

def isCodeC (c : Char) : Bool := isAlnumC c || c = '_' || c = '-'

def igTryKind (k : Str) (r : Str) : Option (Str × Str × Str) := do
  let (ak, r1) ← litCI k r
  let (sl, r2) ← litCI (s2l "/") r1
  let (cd, r3) ← takeWhile1 isCodeC r2
  pure (ak ++ sl ++ cd, r3, cd)

def igMatchAt (s : Str) : Option (Str × Str × Str) := do
  let (a1, r1) ← litCI (s2l "http") s
  let (a2, r2) := optCI (s2l "s") r1
  let (a3, r3) ← litCI (s2l "://") r2
  let (a4, r4) := optCI (s2l "www.") r3
  let (a5, r5) ← litCI (s2l "instagram.com") r4
  let (sl, r6) ← litCI (s2l "/") r5
  let (kt, r7, cd) ←
    ((igTryKind (s2l "p") r6).orElse fun _ =>
     (igTryKind (s2l "reel") r6).orElse fun _ =>
     (igTryKind (s2l "reels") r6).orElse fun _ =>
      igTryKind (s2l "tv") r6)
  pure (a1 ++ a2 ++ a3 ++ a4 ++ a5 ++ sl ++ kt, r7, cd)

/-! Facebook patterns (src/platforms/facebook.py), all `re.IGNORECASE`.
`FACEBOOK_POST_PATTERNS` (searched), the skip list (anchored `re.match`),
the general sweep pattern and the author pattern. -/

def fbHost (r : Str) : Option (Str × Str) := do
  let (a4, r4) := optCI (s2l "www.") r
  let (a5, r5) ← litCI (s2l "facebook.com") r4
  pure (a4 ++ a5, r5)

def fbSchemeHost (s : Str) : Option (Str × Str) := do
  let (a1, r1) ← litCI (s2l "http") s
  let (a2, r2) := optCI (s2l "s") r1
  let (a3, r3) ← litCI (s2l "://") r2
  let (a4, r4) ← fbHost r3
  pure (a1 ++ a2 ++ a3 ++ a4, r4)

/-- `https?://(?:www\.)?facebook\.com/([^/]+)/posts/([a-zA-Z0-9]+)` -/
def fbPostsMatchAt (s : Str) : Option (Str × Str × Str × Str) := do
  let (a0, r0) ← fbSchemeHost s
  let (sl, r1) ← litCI (s2l "/") r0
  let (u, r2) ← takeWhile1 (fun c => c ≠ '/') r1
  let (a3, r3) ← litCI (s2l "/posts/") r2
  let (i, r4) ← takeWhile1 isAlnumC r3
  pure (a0 ++ sl ++ u ++ a3 ++ i, r4, u, i)

/-- `https?://(?:www\.)?facebook\.com/permalink\.php\?` -/
def fbPermalinkMatchAt (s : Str) : Option (Str × Str × Unit) := do
  let (a0, r0) ← fbSchemeHost s
  let (a1, r1) ← litCI (s2l "/permalink.php?") r0
  pure (a0 ++ a1, r1, ())

/-- `https?://(?:www\.)?facebook\.com/photo(?:\.php)?\?` -/
def fbPhotoMatchAt (s : Str) : Option (Str × Str × Unit) := do
  let (a0, r0) ← fbSchemeHost s
  let (a1, r1) ← litCI (s2l "/photo") r0
  let (a2, r2) := optCI (s2l ".php") r1
  let (a3, r3) ← litCI (s2l "?") r2
  pure (a0 ++ a1 ++ a2 ++ a3, r3, ())

/-- `https?://(?:www\.)?facebook\.com/watch/?\?v=(\d+)` -/
def fbWatchMatchAt (s : Str) : Option (Str × Str × Str) := do
  let (a0, r0) ← fbSchemeHost s
  let (a1, r1) ← litCI (s2l "/watch") r0
  let (a2, r2) := optCI (s2l "/") r1
  let (a3, r3) ← litCI (s2l "?v=") r2
  let (d, r4) ← takeWhile1 isDigitC r3
  pure (a0 ++ a1 ++ a2 ++ a3 ++ d, r4, d)

/-- `https?://(?:www\.)?facebook\.com/reel/(\d+)` -/
def fbReelMatchAt (s : Str) : Option (Str × Str × Str) := do
  let (a0, r0) ← fbSchemeHost s
  let (a1, r1) ← litCI (s2l "/reel/") r0
  let (d, r2) ← takeWhile1 isDigitC r1
  pure (a0 ++ a1 ++ d, r2, d)

/-- `https?://(?:www\.)?facebook\.com/([^/]+)/videos/(\d+)` -/
def fbVideosMatchAt (s : Str) : Option (Str × Str × Str × Str) := do
  let (a0, r0) ← fbSchemeHost s
  let (sl, r1) ← litCI (s2l "/") r0
  let (u, r2) ← takeWhile1 (fun c => c ≠ '/') r1
  let (a3, r3) ← litCI (s2l "/videos/") r2
  let (d, r4) ← takeWhile1 isDigitC r3
  pure (a0 ++ sl ++ u ++ a3 ++ d, r4, u, d)

/-- `https?://fb\.watch/([a-zA-Z0-9_-]+)` -/
def fbWatchShortMatchAt (s : Str) : Option (Str × Str × Str) := do
  let (a1, r1) ← litCI (s2l "http") s
  let (a2, r2) := optCI (s2l "s") r1
  let (a3, r3) ← litCI (s2l "://fb.watch/") r2
  let (cd, r4) ← takeWhile1 isCodeC r3
  pure (a1 ++ a2 ++ a3 ++ cd, r4, cd)

/-- `https?://(?:www\.)?facebook\.com/stories/` -/
def fbStoriesMatchAt (s : Str) : Option (Str × Str × Unit) := do
  let (a0, r0) ← fbSchemeHost s
  let (a1, r1) ← litCI (s2l "/stories/") r0
  pure (a0 ++ a1, r1, ())

/-- General sweep pattern
`https?://(?:www\.)?(?:facebook\.com|fb\.watch)/[^\s"\'<>]+`. -/
def isFbGeneralC (c : Char) : Bool :=
  !isPyWs c && c ≠ '"' && c ≠ '\'' && c ≠ '<' && c ≠ '>'

def fbGeneralMatchAt (s : Str) : Option (Str × Str × Unit) := do
  let (a1, r1) ← litCI (s2l "http") s
  let (a2, r2) := optCI (s2l "s") r1
  let (a3, r3) ← litCI (s2l "://") r2
  let (a4, r4) := optCI (s2l "www.") r3
  let (a5, r5) ←
    (match litCI (s2l "facebook.com/") r4 with
     | some v => some v
     | none => litCI (s2l "fb.watch/") r4)
  let (b, r6) ← takeWhile1 isFbGeneralC r5
  pure (a1 ++ a2 ++ a3 ++ a4 ++ a5 ++ b, r6, ())

/-- Anchored skip patterns of `_is_facebook_content_url` (`re.match`).
`^https?://(?:www\.)?facebook\.com/?$` and the `home`/`login`/`sharer`/`share`
cases. -/
def fbSkipMatch (url : Str) : Bool :=
  (match fbSchemeHost url with
   | some (_, rest) =>
     rest = [] || rest = ['/']
       || (litCI (s2l "/home") rest).isSome
       || (litCI (s2l "/login") rest).isSome
       || (litCI (s2l "/sharer") rest).isSome
       || (litCI (s2l "/share") rest).isSome
   | none => false)

/-- `_is_facebook_content_url`: skip list first, then the eight content
patterns (searched anywhere in the URL). -/
def fb_is_content_url (url : Str) : Bool :=
  if fbSkipMatch url then false
  else
    (reSearch fbPostsMatchAt url).isSome
    || (reSearch fbPermalinkMatchAt url).isSome
    || (reSearch fbPhotoMatchAt url).isSome
    || (reSearch fbWatchMatchAt url).isSome
    || (reSearch fbReelMatchAt url).isSome
    || (reSearch fbVideosMatchAt url).isSome
    || (reSearch fbWatchShortMatchAt url).isSome
    || (reSearch fbStoriesMatchAt url).isSome

/-- Author pattern of `FacebookPlatform.extract_author`:
`facebook\.com/([^/]+)/(?:posts|videos)/`, `re.IGNORECASE`. -/
def fbAuthorMatchAt (s : Str) : Option (Str × Str × Str) := do
  let (a1, r1) ← litCI (s2l "facebook.com/") s
  let (u, r2) ← takeWhile1 (fun c => c ≠ '/') r1
  let (sl, r3) ← litCI (s2l "/") r2
  let (k, r4) ←
    (match litCI (s2l "posts") r3 with
     | some v => some v
     | none => litCI (s2l "videos") r3)
  let (sl2, r5) ← litCI (s2l "/") r4
  pure (a1 ++ u ++ sl ++ k ++ sl2, r5, u)

/-! Platform URL operations, translated from the corresponding Python
methods. -/

/-- `BlueskyPlatform.normalize_url`: strip, drop query/fragment via
`urlparse`, re-search the pattern on the cleaned URL and rebuild the
canonical form, else return the cleaned URL. -/
def bluesky_normalize_url (url : Str) : Str :=
  let url := pyStrip url
  let parsed := urlparseM url
  let cleanUrl := parsed.scheme ++ s2l "://" ++ parsed.netloc ++ parsed.path
  match reSearch bskyMatchAt cleanUrl with
  | some (_, _, h, i) => s2l "https://bsky.app/profile/" ++ h ++ s2l "/post/" ++ i
  | none => cleanUrl

/-- `BlueskyPlatform._at_uri_to_url` (`AT_URI_PATTERN.match`, anchored). -/
def at_uri_to_url (atUri : Str) : Option Str :=
  match atMatchAt atUri with
  | some (_, _, h, i) => some (s2l "https://bsky.app/profile/" ++ h ++ s2l "/post/" ++ i)
  | none => none

/-- `BlueskyPlatform.extract_author`; `resolver` models `_resolve_did`
(PLC directory lookup), returning `none` on failure.  The source falls back
to the DID both when resolution fails and when it yields a falsy (empty)
string. -/
def bluesky_extract_author (resolver : Str → Option Str) (url : Str) : Str :=
  match reSearch bskyMatchAt url with
  | some (_, _, h, _) =>
    if didMatch h then
      match resolver h with
      | some r => if r.isEmpty then h else r
      | none => h
    else h
  | none => s2l "unknown"

/-- `TwitterPlatform.normalize_url` (the `clean_path` it computes from
`urlparse` is never used by the source). -/
def twitter_normalize_url (url : Str) : Str :=
  let url := pyStrip url
  match reSearch twMatchAt url with
  | some (_, _, u, d) => s2l "https://x.com/" ++ u ++ s2l "/status/" ++ d
  | none => url

/-- `TwitterPlatform.extract_author`. -/
def twitter_extract_author (url : Str) : Str :=
  match reSearch twMatchAt url with
  | some (_, _, u, _) => '@' :: u
  | none => s2l "unknown"

/-- `TikTokPlatform._expand_short_url`; `hr` models the
redirect-following HTTP HEAD lookup (`none` covers both a network error and
a missing final URL).  The expanded URL is only accepted when it matches the
full TikTok pattern. -/
def tt_expand_short_url (hr : Str → Option Str) (shortUrl : Str) : Option Str :=
  match hr shortUrl with
  | some finalUrl =>
    if (reSearch ttFullMatchAt finalUrl).isSome then some finalUrl else none
  | none => none

/-- `TikTokPlatform.normalize_url`. -/
def tiktok_normalize_url (hr : Str → Option Str) (url : Str) : Str :=
  let url := pyStrip url
  let url :=
    if (reSearch ttShortMatchAt url).isSome then
      match tt_expand_short_url hr url with
      | some e => e
      | none => url
    else url
  match reSearch ttFullMatchAt url with
  | some (_, _, u, d) => s2l "https://www.tiktok.com/@" ++ u ++ s2l "/video/" ++ d
  | none => url

/-- `TikTokPlatform.extract_author`. -/
def tiktok_extract_author (url : Str) : Str :=
  match reSearch ttFullMatchAt url with
  | some (_, _, u, _) => '@' :: u
  | none => s2l "unknown"

/-- The pre-normalization step of `TikTokPlatform.normalize_url`: strip,
then expand a short link when the short pattern matches and the expansion
succeeds. -/
def ttPre (hr : Str → Option Str) (url : Str) : Str :=
  if (reSearch ttShortMatchAt (pyStrip url)).isSome then
    match tt_expand_short_url hr (pyStrip url) with
    | some e => e
    | none => pyStrip url
  else pyStrip url

/-- `InstagramPlatform.normalize_url`. -/
def instagram_normalize_url (url : Str) : Str :=
  let url := pyStrip url
  match reSearch igMatchAt url with
  | some (g0, _, _) =>
    let fullMatch := if g0.getLast? = some '/' then g0 else g0 ++ ['/']
    s2l "https://www.instagram.com" ++ (urlparseM fullMatch).path
  | none => url

/-- `InstagramPlatform.extract_author`. -/
def instagram_extract_author (url : Str) : Str :=
  if (reSearch igMatchAt url).isSome then s2l "(see post)" else s2l "unknown"

/-- `FacebookPlatform.normalize_url`. -/
def facebook_normalize_url (url : Str) : Str :=
  let url := pyStrip url
  let parsed := urlparseM url
  if hasSubstr (s2l "facebook.com") parsed.netloc then
    if hasSubstr (s2l "permalink.php") parsed.path
        || hasSubstr (s2l "photo.php") parsed.path then
      let essential :=
        ([s2l "story_fbid", s2l "id", s2l "fbid", s2l "v"]).filterMap
          (fun k => (qsFirst parsed.query k).map (fun v => (k, v)))
      if !essential.isEmpty then
        s2l "https://www.facebook.com" ++ parsed.path ++ '?' ::
          List.intercalate (s2l "&") (essential.map (fun p => p.1 ++ '=' :: p.2))
      else s2l "https://www.facebook.com" ++ parsed.path
    else s2l "https://www.facebook.com" ++ parsed.path
  else if hasSubstr (s2l "fb.watch") parsed.netloc then
    s2l "https://fb.watch" ++ parsed.path
  else url

/-- `FacebookPlatform.extract_author`. -/
def facebook_extract_author (url : Str) : Str :=
  match reSearch fbAuthorMatchAt url with
  | some (_, _, u) =>
    if [s2l "permalink.php", s2l "photo.php", s2l "watch", s2l "reel",
        s2l "stories"].contains u
    then s2l "(see post)" else u
  | none => s2l "(see post)"

/-! HTML document model standing for the BeautifulSoup parse tree, with the
tree operations the source uses (`find_all`, `decompose`, attribute and
class access) and serialisation (`str(...)`, used for the raw-text regex
sweeps). -/

inductive Node where
  | elem (tag : Str) (attrs : List (Str × Str)) (children : List Node)
  | text (s : Str)

def escText : Str → Str
  | [] => []
  | '&' :: t => s2l "&amp;" ++ escText t
  | '<' :: t => s2l "&lt;" ++ escText t
  | '>' :: t => s2l "&gt;" ++ escText t
  | c :: t => c :: escText t

def escAttr : Str → Str
  | [] => []
  | '&' :: t => s2l "&amp;" ++ escAttr t
  | '"' :: t => s2l "&quot;" ++ escAttr t
  | c :: t => c :: escAttr t

mutual

def serializeNode : Node → Str
  | .text s => escText s
  | .elem tag attrs children =>
    '<' :: tag
      ++ (attrs.map (fun p => ' ' :: p.1 ++ '=' :: '"' :: escAttr p.2 ++ ['"'])).flatten
      ++ '>' :: serializeChildren children ++ '<' :: '/' :: tag ++ ['>']

def serializeChildren : List Node → Str
  | [] => []
  | n :: ns => serializeNode n ++ serializeChildren ns

end

/-- Serialisation of an extracted fragment; `extract_article_content` joins
multiple `article` elements with a newline. -/
def serializeDoc (ns : List Node) : Str :=
  List.intercalate (s2l "\n") (ns.map serializeNode)

def nodeTag : Node → Option Str
  | .elem t _ _ => some t
  | .text _ => none

def nodeAttrs : Node → List (Str × Str)
  | .elem _ a _ => a
  | .text _ => []

def nodeChildren : Node → List Node
  | .elem _ _ ch => ch
  | .text _ => []

def getAttr (attrs : List (Str × Str)) (k : Str) : Option Str :=
  (attrs.find? (fun p => p.1 == k)).map (fun p => p.2)

def nodeClasses (attrs : List (Str × Str)) : List Str :=
  match getAttr attrs (s2l "class") with
  | some v => (splitOn ' ' v).filter (fun f => !f.isEmpty)
  | none => []

def hasClass (attrs : List (Str × Str)) (c : Str) : Bool :=
  (nodeClasses attrs).contains c

mutual

/-- `soup.find_all(predicate)`: matching elements in document (pre-)order,
descendants included. -/
def findAllNodes (p : Node → Bool) : List Node → List Node
  | [] => []
  | n :: ns => (if p n then [n] else []) ++ findInNode p n ++ findAllNodes p ns

def findInNode (p : Node → Bool) : Node → List Node
  | .elem _ _ ch => findAllNodes p ch
  | .text _ => []

end

mutual

/-- `tag.decompose()` applied to every element whose tag is listed. -/
def decomposeNodes (tags : List Str) : List Node → List Node
  | [] => []
  | n :: ns => decomposeOne tags n ++ decomposeNodes tags ns

def decomposeOne (tags : List Str) : Node → List Node
  | .text s => [.text s]
  | .elem t a ch =>
    if tags.contains t then [] else [.elem t a (decomposeNodes tags ch)]

end

def isAnchorWithHref (n : Node) : Bool :=
  nodeTag n == some (s2l "a") && (getAttr (nodeAttrs n) (s2l "href")).isSome

def anchorHrefs (ns : List Node) : List Str :=
  (findAllNodes isAnchorWithHref ns).filterMap (fun n => getAttr (nodeAttrs n) (s2l "href"))

/-- Python set insertion, iterated in insertion order (the source's set
iteration order is unspecified; only membership matters to its callers). -/
def addUrl (acc : List Str) (u : Str) : List Str :=
  if acc.contains u then acc else acc ++ [u]

/-- `extract_article_content` (src/platforms/base.py): strip boilerplate
elements, then try `article` elements, a `main` element, a fixed list of
container selectors, the `body`, and finally the whole stripped document. -/
def contentSelectors : List (Bool × Str) :=
  [(true, s2l "article-content"), (true, s2l "article-body"),
   (true, s2l "post-content"), (true, s2l "entry-content"),
   (true, s2l "story-body"), (true, s2l "content-body"),
   (false, s2l "article-body"), (false, s2l "story-body"),
   (false, s2l "main-content"), (true, s2l "c-entry-content"),
   (true, s2l "article__content"), (true, s2l "article__body")]

def isElemTag (t : Str) (n : Node) : Bool := nodeTag n == some t

def extract_article_content (doc : List Node) : List Node :=
  let doc := decomposeNodes
    [s2l "header", s2l "footer", s2l "nav", s2l "aside",
     s2l "script", s2l "style", s2l "noscript"] doc
  let articles := findAllNodes (isElemTag (s2l "article")) doc
  if !articles.isEmpty then articles
  else
    match (findAllNodes (isElemTag (s2l "main")) doc).head? with
    | some m => [m]
    | none =>
      match contentSelectors.findSome? (fun sel =>
        (findAllNodes (fun n =>
          (nodeTag n == some (s2l "div") || nodeTag n == some (s2l "section"))
          && (if sel.1 then hasClass (nodeAttrs n) sel.2
              else getAttr (nodeAttrs n) (s2l "id") == some sel.2)) doc).head?) with
      | some c => [c]
      | none =>
        match (findAllNodes (isElemTag (s2l "body")) doc).head? with
        | some b => [b]
        | none => doc

/-! Detector scans (`detect_embeds` of each platform).  Each takes the
extracted fragment as a node list; raw-text `finditer` sweeps run over its
serialisation, mirroring the string round-trip of the source.  The unused
`article_url` parameter is kept for fidelity. -/

def bluesky_detect_embeds (doc : List Node) (_articleUrl : Str) : List Str :=
  let html := serializeDoc doc
  let urls : List Str := []
  let urls := (anchorHrefs doc).foldl (fun acc href =>
    if hasSubstr (s2l "bsky.app/profile/") href && hasSubstr (s2l "/post/") href
        && (reSearch bskyMatchAt href).isSome
    then addUrl acc href else acc) urls
  let urls := (findAllRe atMatchAt html).foldl (fun acc m =>
    match at_uri_to_url m.1 with
    | some conv => addUrl acc conv
    | none => acc) urls
  let urls := (findAllNodes (fun n => nodeTag n == some (s2l "blockquote")
      && hasClass (nodeAttrs n) (s2l "bluesky-embed")) doc).foldl (fun acc bq =>
    match (findAllNodes isAnchorWithHref (nodeChildren bq)).head? with
    | some ln =>
      match getAttr (nodeAttrs ln) (s2l "href") with
      | some href =>
        if hasSubstr (s2l "bsky.app") href && (reSearch bskyMatchAt href).isSome
        then addUrl acc href else acc
      | none => acc
    | none => acc) urls
  let urls := (findAllNodes (fun n =>
      (getAttr (nodeAttrs n) (s2l "data-bluesky-uri")).isSome) doc).foldl (fun acc n =>
    match getAttr (nodeAttrs n) (s2l "data-bluesky-uri") with
    | some uri =>
      if !uri.isEmpty then
        if (litEx (s2l "at://") uri).isSome then
          match at_uri_to_url uri with
          | some conv => addUrl acc conv
          | none => acc
        else if hasSubstr (s2l "bsky.app") uri then addUrl acc uri
        else acc
      else acc
    | none => acc) urls
  urls

def twitter_detect_embeds (doc : List Node) (_articleUrl : Str) : List Str :=
  let html := serializeDoc doc
  let urls : List Str := []
  let urls := (anchorHrefs doc).foldl (fun acc href =>
    if (reSearch twMatchAt href).isSome then addUrl acc href else acc) urls
  let urls := (findAllNodes (fun n => nodeTag n == some (s2l "blockquote")
      && hasClass (nodeAttrs n) (s2l "twitter-tweet")) doc).foldl (fun acc bq =>
    (anchorHrefs (nodeChildren bq)).foldl (fun acc2 href =>
      if (reSearch twMatchAt href).isSome then addUrl acc2 href else acc2) acc) urls
  let urls := (findAllRe twMatchAt html).foldl (fun acc m => addUrl acc m.1) urls
  urls

def tiktok_detect_embeds (hr : Str → Option Str) (doc : List Node) (_articleUrl : Str) :
    List Str :=
  let html := serializeDoc doc
  let urls : List Str := []
  let urls := (anchorHrefs doc).foldl (fun acc href =>
    if hasSubstr (s2l "tiktok.com") href then
      if (reSearch ttFullMatchAt href).isSome then addUrl acc href
      else if (reSearch ttShortMatchAt href).isSome then
        match tt_expand_short_url hr href with
        | some e => addUrl acc e
        | none => acc
      else acc
    else acc) urls
  let urls := (findAllNodes (fun n => nodeTag n == some (s2l "blockquote")
      && hasClass (nodeAttrs n) (s2l "tiktok-embed")) doc).foldl (fun acc bq =>
    match getAttr (nodeAttrs bq) (s2l "cite") with
    | some cite =>
      if !cite.isEmpty && (reSearch ttFullMatchAt cite).isSome then addUrl acc cite
      else acc
    | none => acc) urls
  let urls := (findAllRe ttFullMatchAt html).foldl (fun acc m => addUrl acc m.1) urls
  let urls := (findAllRe ttShortMatchAt html).foldl (fun acc m =>
    match tt_expand_short_url hr m.1 with
    | some e => addUrl acc e
    | none => acc) urls
  urls

def instagram_detect_embeds (doc : List Node) (_articleUrl : Str) : List Str :=
  let html := serializeDoc doc
  let urls : List Str := []
  let urls := (anchorHrefs doc).foldl (fun acc href =>
    if (reSearch igMatchAt href).isSome then addUrl acc href else acc) urls
  let urls := (findAllNodes (fun n => nodeTag n == some (s2l "blockquote")
      && hasClass (nodeAttrs n) (s2l "instagram-media")) doc).foldl (fun acc bq =>
    let acc :=
      match getAttr (nodeAttrs bq) (s2l "data-instgrm-permalink") with
      | some pl =>
        if !pl.isEmpty && (reSearch igMatchAt pl).isSome then addUrl acc pl else acc
      | none => acc
    (anchorHrefs (nodeChildren bq)).foldl (fun acc2 href =>
      if (reSearch igMatchAt href).isSome then addUrl acc2 href else acc2) acc) urls
  let urls := (findAllRe igMatchAt html).foldl (fun acc m => addUrl acc m.1) urls
  urls

/-- Class regex of the Facebook embed-div scan, `fb-(post|video|reel)`
(compiled without `re.IGNORECASE`), searched within each class token. -/
def fbClassMatch (s : Str) : Option Unit := do
  let r1 ← litEx (s2l "fb-") s
  let _ ←
    (match litEx (s2l "post") r1 with
     | some v => some v
     | none =>
       match litEx (s2l "video") r1 with
       | some v => some v
       | none => litEx (s2l "reel") r1)
  pure ()

def facebook_detect_embeds (doc : List Node) (_articleUrl : Str) : List Str :=
  let html := serializeDoc doc
  let urls : List Str := []
  let urls := (anchorHrefs doc).foldl (fun acc href =>
    if fb_is_content_url href then addUrl acc href else acc) urls
  let urls := (findAllNodes (fun n =>
      (nodeTag n == some (s2l "div") || nodeTag n == some (s2l "blockquote"))
      && (nodeClasses (nodeAttrs n)).any (fun c => (reSearch fbClassMatch c).isSome)) doc).foldl
    (fun acc d =>
      match getAttr (nodeAttrs d) (s2l "data-href") with
      | some dh => if !dh.isEmpty && fb_is_content_url dh then addUrl acc dh else acc
      | none => acc) urls
  let urls := (findAllNodes (fun n => nodeTag n == some (s2l "iframe")
      && (getAttr (nodeAttrs n) (s2l "src")).isSome) doc).foldl (fun acc ifr =>
    match getAttr (nodeAttrs ifr) (s2l "src") with
    | some src =>
      if hasSubstr (s2l "facebook.com/plugins/") src then
        match qsFirst (urlparseM src).query (s2l "href") with
        | some href =>
          if !href.isEmpty then
            let decoded := unquoteAscii href
            if fb_is_content_url decoded then addUrl acc decoded else acc
          else acc
        | none => acc
      else acc
    | none => acc) urls
  let urls := (findAllRe fbGeneralMatchAt html).foldl (fun acc m =>
    if fb_is_content_url m.1 then addUrl acc m.1 else acc) urls
  urls

/-! The platform capability set (`BasePlatform` subclasses) and the embed
assembler (`BasePlatform.create_embed` / `process_article`). -/

structure Platform where
  name : Str
  detect_embeds : List Node → Str → List Str
  normalize_url : Str → Str
  extract_author : Str → Str

def blueskyPlatform (resolver : Str → Option Str) : Platform :=
  { name := s2l "bluesky", detect_embeds := bluesky_detect_embeds,
    normalize_url := bluesky_normalize_url,
    extract_author := bluesky_extract_author resolver }

def twitterPlatform : Platform :=
  { name := s2l "twitter", detect_embeds := twitter_detect_embeds,
    normalize_url := twitter_normalize_url, extract_author := twitter_extract_author }

def tiktokPlatform (hr : Str → Option Str) : Platform :=
  { name := s2l "tiktok", detect_embeds := tiktok_detect_embeds hr,
    normalize_url := tiktok_normalize_url hr, extract_author := tiktok_extract_author }

def instagramPlatform : Platform :=
  { name := s2l "instagram", detect_embeds := instagram_detect_embeds,
    normalize_url := instagram_normalize_url,
    extract_author := instagram_extract_author }

def facebookPlatform : Platform :=
  { name := s2l "facebook", detect_embeds := facebook_detect_embeds,
    normalize_url := facebook_normalize_url,
    extract_author := facebook_extract_author }

/-- `EmbedPost` (src/platforms/base.py).  `discovered_at` is modelled by its
two formatted projections (date and time strings), and the optional
`article_published` timestamp by its formatted string, since the source only
ever formats them into sheet rows. -/
structure EmbedPost where
  post_url : Str
  author_handle : Str
  platform : Str
  article_url : Str
  article_title : Str
  article_domain : Str
  discovered_date : Str
  discovered_time : Str
  article_published : Option Str
  article_summary : Option Str
deriving DecidableEq, Repr

/-- `EmbedPost.to_sheet_row`: repost status is `pending` exactly for the
bluesky platform, `n/a` otherwise. -/
def to_sheet_row (e : EmbedPost) : List Str :=
  [e.discovered_date, e.discovered_time, e.platform, e.article_domain,
   e.author_handle, e.article_url, e.post_url, e.article_title,
   e.article_summary.getD [], e.article_published.getD [],
   if e.platform = s2l "bluesky" then s2l "pending" else s2l "n/a"]

/-- `BasePlatform.create_embed`; `now` models `datetime.utcnow()` taken at
construction.  The article domain is the parsed netloc with
`.replace("www.", "")` applied. -/
def create_embed (P : Platform) (now : Str × Str) (post_url article_url article_title : Str)
    (article_published article_summary : Option Str) : EmbedPost :=
  let domain := stripWwwAll (urlparseM article_url).netloc
  { post_url := P.normalize_url post_url
    author_handle := P.extract_author post_url
    platform := P.name
    article_url := article_url
    article_title := article_title
    article_domain := domain
    discovered_date := now.1
    discovered_time := now.2
    article_published := article_published
    article_summary := article_summary }

/-- Candidate loop of `BasePlatform.process_article`: normalize each
candidate, skip those whose normalized form was already seen, and build a
record from the normalized URL otherwise (`create_embed` never fails in this
model, so its `except` branch is not taken). -/
def processLoop (P : Platform) (now : Str × Str) (article_url article_title : Str)
    (article_published article_summary : Option Str) :
    List Str → List Str → List EmbedPost
  | [], _ => []
  | c :: cs, seen =>
    let n := P.normalize_url c
    if seen.contains n then
      processLoop P now article_url article_title article_published article_summary cs seen
    else
      create_embed P now n article_url article_title article_published article_summary ::
        processLoop P now article_url article_title article_published article_summary cs
          (n :: seen)

/-- `BasePlatform.process_article`. -/
def process_article (P : Platform) (now : Str × Str) (doc : List Node)
    (article_url article_title : Str) (article_published article_summary : Option Str) :
    List EmbedPost :=
  let article := extract_article_content doc
  let postUrls := P.detect_embeds article article_url
  processLoop P now article_url article_title article_published article_summary postUrls []

/-! The persistent log (`SheetsManager`, src/sheets_manager.py).  A sheet is
its rows together with two failure-injection flags standing for exceptions
raised by the bulk column read and the bulk append call. -/

structure Sheet where
  rows : List (List Str)
  readFails : Bool
  appendFails : Bool

/-- `worksheet.col_values(7)`: the seventh (1-indexed) column, the post URL. -/
def col_values7 (rows : List (List Str)) : List Str :=
  rows.map (fun r => (r.get? 6).getD [])

/-- `SheetsManager.get_existing_post_urls`: the post-URL column minus the
header row; a read failure is caught and yields the empty set. -/
def get_existing_post_urls (s : Sheet) : List Str :=
  if s.readFails then [] else (col_values7 s.rows).drop 1

/-- `SheetsManager.write_embeds_batch`.  Returns the `(written, skipped)`
pair together with the rows actually appended.  A raised append is caught by
the outer handler, which reports `(0, len(embeds))` and appends nothing. -/
def write_embeds_batch (embeds : List EmbedPost) (s : Sheet) :
    (Nat × Nat) × List (List Str) :=
  if embeds.isEmpty then ((0, 0), [])
  else
    let existing := get_existing_post_urls s
    let newEmbeds := embeds.filter (fun e => !existing.contains e.post_url)
    let skipped := embeds.length - newEmbeds.length
    if newEmbeds.isEmpty then ((0, skipped), [])
    else if s.appendFails then ((0, embeds.length), [])
    else ((newEmbeds.length, skipped), newEmbeds.map to_sheet_row)

/-! Generic lemmas about the scanning primitives. -/

theorem lowerEq_refl (c : Char) : lowerEq c c = true := by simp [lowerEq]

theorem litCI_self (p r : Str) : litCI p (p ++ r) = some (p, r) := by
  induction p with
  | nil => rfl
  | cons c t ih => simp [litCI, lowerEq_refl, ih]

theorem litCI_headFail {p0 c : Char} {ps cs : Str} (h : lowerEq p0 c = false) :
    litCI (p0 :: ps) (c :: cs) = none := by
  simp [litCI, h]

theorem optCI_self (p r : Str) : optCI p (p ++ r) = (p, r) := by
  unfold optCI; rw [litCI_self]

theorem litCI_append {p s a r : Str} (h : litCI p s = some (a, r)) : s = a ++ r := by
  induction p generalizing s a r with
  | nil =>
    simp only [litCI, Option.some.injEq, Prod.mk.injEq] at h
    rw [← h.1, ← h.2]; rfl
  | cons pc pt ih =>
    cases s with
    | nil => simp [litCI] at h
    | cons c cs =>
      rw [litCI] at h
      by_cases hle : lowerEq pc c = true
      · rw [if_pos hle] at h
        cases hm : litCI pt cs with
        | none => rw [hm] at h; cases h
        | some v =>
          rw [hm] at h
          simp only [Option.map_some', Option.some.injEq, Prod.mk.injEq] at h
          have := ih hm
          rw [← h.1, ← h.2]
          simp [this]
      · rw [if_neg hle] at h; cases h

theorem litCI_chars {p s a r : Str} (h : litCI p s = some (a, r)) :
    ∀ c ∈ a, ∃ pc ∈ p, lowerEq pc c = true := by
  induction p generalizing s a r with
  | nil =>
    simp only [litCI, Option.some.injEq, Prod.mk.injEq] at h
    rw [← h.1]; intro c hc; cases hc
  | cons pc pt ih =>
    cases s with
    | nil => simp [litCI] at h
    | cons c cs =>
      rw [litCI] at h
      by_cases hle : lowerEq pc c = true
      · rw [if_pos hle] at h
        cases hm : litCI pt cs with
        | none => rw [hm] at h; cases h
        | some v =>
          rw [hm] at h
          simp only [Option.map_some', Option.some.injEq, Prod.mk.injEq] at h
          rw [← h.1]
          intro d hd
          rcases List.mem_cons.mp hd with h1 | h2
          · exact ⟨pc, by simp, h1 ▸ hle⟩
          · obtain ⟨qc, hq1, hq2⟩ := ih hm d h2
            exact ⟨qc, by simp [hq1], hq2⟩
      · rw [if_neg hle] at h; cases h

theorem lowerEq_nonalpha {p c : Char} (h1 : isUpperC p = false) (h2 : isLowerC p = false)
    (h : lowerEq p c = true) : c = p := by
  simp only [lowerEq, h1, h2, Bool.false_and, Bool.and_false, Bool.or_false,
    decide_eq_true_eq] at h
  exact h.symm

theorem litCI_exact {p s a r : Str}
    (hp : ∀ pc ∈ p, isUpperC pc = false ∧ isLowerC pc = false)
    (h : litCI p s = some (a, r)) : a = p ∧ s = p ++ r := by
  induction p generalizing s a r with
  | nil =>
    simp only [litCI, Option.some.injEq, Prod.mk.injEq] at h
    exact ⟨h.1.symm, by rw [← h.2]; rfl⟩
  | cons pc pt ih =>
    cases s with
    | nil => simp [litCI] at h
    | cons c cs =>
      rw [litCI] at h
      by_cases hle : lowerEq pc c = true
      · rw [if_pos hle] at h
        cases hm : litCI pt cs with
        | none => rw [hm] at h; cases h
        | some v =>
          rw [hm] at h
          simp only [Option.map_some', Option.some.injEq, Prod.mk.injEq] at h
          have hpc := hp pc (by simp)
          have hc : c = pc := lowerEq_nonalpha hpc.1 hpc.2 hle
          have iht := ih (fun q hq => hp q (by simp [hq])) hm
          constructor
          · rw [← h.1, hc, iht.1]
          · rw [← h.2, hc, iht.2]; rfl
      · rw [if_neg hle] at h; cases h

theorem takeWhile_dropWhile_append {p : Char → Bool} {x y : Str}
    (hall : ∀ c ∈ x, p c = true) (hy : ∀ c, y.head? = some c → p c = false) :
    (x ++ y).takeWhile p = x ∧ (x ++ y).dropWhile p = y := by
  induction x with
  | nil =>
    simp only [List.nil_append]
    cases y with
    | nil => simp
    | cons c t =>
      have := hy c rfl
      simp [List.takeWhile_cons, List.dropWhile_cons, this]
  | cons c t ih =>
    have hc := hall c (by simp)
    have iht := ih (fun d hd => hall d (by simp [hd])) 
    simp [List.takeWhile_cons, List.dropWhile_cons, hc, iht.1, iht.2]

theorem takeWhile1_append {p : Char → Bool} {x y : Str} (hne : x ≠ [])
    (hall : ∀ c ∈ x, p c = true) (hy : ∀ c, y.head? = some c → p c = false) :
    takeWhile1 p (x ++ y) = some (x, y) := by
  have h := takeWhile_dropWhile_append hall hy
  unfold takeWhile1
  rw [h.1, h.2]
  cases x with
  | nil => exact absurd rfl hne
  | cons c t => rfl

theorem takeWhile1_all {p : Char → Bool} {x : Str} (hne : x ≠ [])
    (hall : ∀ c ∈ x, p c = true) : takeWhile1 p x = some (x, []) := by
  have h := @takeWhile1_append p x [] hne hall (by intro c hc; cases hc)
  simpa using h

theorem takeWhile1_sound {p : Char → Bool} {s x r : Str}
    (h : takeWhile1 p s = some (x, r)) :
    x ≠ [] ∧ (∀ c ∈ x, p c = true) ∧ s = x ++ r := by
  unfold takeWhile1 at h
  cases ht : s.takeWhile p with
  | nil => rw [ht] at h; cases h
  | cons c t =>
    rw [ht] at h
    simp only [Option.some.injEq, Prod.mk.injEq] at h
    refine ⟨by rw [← h.1]; simp, ?_, ?_⟩
    · intro d hd
      rw [← h.1] at hd
      rw [← ht] at hd
      exact List.mem_takeWhile_imp hd
    · rw [← h.1, ← h.2, ← ht]
      exact (@List.takeWhile_append_dropWhile _ p s).symm

theorem reSearch_of_matchAt {α : Type} {m : Str → Option α} {s : Str} {r : α}
    (h : m s = some r) : reSearch m s = some r := by
  cases s with
  | nil => exact h
  | cons c t => rw [reSearch, h]

theorem reSearch_some {α : Type} {m : Str → Option α} {s : Str} {r : α}
    (h : reSearch m s = some r) : ∃ t, t <:+ s ∧ m t = some r := by
  induction s with
  | nil => exact ⟨[], List.suffix_refl _, h⟩
  | cons c t ih =>
    rw [reSearch] at h
    cases hm : m (c :: t) with
    | some v =>
      rw [hm] at h
      cases h
      exact ⟨c :: t, List.suffix_refl _, hm⟩
    | none =>
      rw [hm] at h
      obtain ⟨u, hu, hmu⟩ := ih h
      exact ⟨u, hu.trans (List.suffix_cons c t), hmu⟩

theorem reSearch_eq_none {α : Type} {m : Str → Option α} {s : Str}
    (h : ∀ t, t <:+ s → m t = none) : reSearch m s = none := by
  cases hr : reSearch m s with
  | none => rfl
  | some v =>
    obtain ⟨t, ht, hmt⟩ := reSearch_some hr
    rw [h t ht] at hmt
    cases hmt

/-! Lemmas about `pyStrip` and list suffixes. -/

theorem dropWhile_dropWhile (p : Char → Bool) (l : Str) :
    (l.dropWhile p).dropWhile p = l.dropWhile p := by
  induction l with
  | nil => rfl
  | cons c t ih =>
    rw [List.dropWhile_cons]
    split
    · exact ih
    · rw [List.dropWhile_cons]; simp [*]

theorem dropWhile_eq_self_of_front {p : Char → Bool} {x y : Str}
    (hx : x.dropWhile p = x) (hxy : y <+: x) : y.dropWhile p = y := by
  cases y with
  | nil => rfl
  | cons c t =>
    cases x with
    | nil =>
      obtain ⟨r, hr⟩ := hxy
      cases hr
    | cons d s =>
      obtain ⟨r, hr⟩ := hxy
      have hcd : c = d := by
        have := congrArg List.head? hr
        simpa using this
      rw [List.dropWhile_cons] at hx ⊢
      subst hcd
      by_cases hp : p c = true
      · rw [if_pos hp] at hx
        exfalso
        have hle : (s.dropWhile p).length ≤ s.length :=
          (List.dropWhile_suffix p).sublist.length_le
        rw [hx] at hle
        simp at hle
      · rw [if_neg hp]

theorem pyStrip_idem (s : Str) : pyStrip (pyStrip s) = pyStrip s := by
  unfold pyStrip
  have h2 : ((s.dropWhile isPyWs).reverse.dropWhile isPyWs).dropWhile isPyWs
      = (s.dropWhile isPyWs).reverse.dropWhile isPyWs := dropWhile_dropWhile _ _
  have h1 : ((s.dropWhile isPyWs).reverse.dropWhile isPyWs).reverse.dropWhile isPyWs
      = ((s.dropWhile isPyWs).reverse.dropWhile isPyWs).reverse := by
    apply @dropWhile_eq_self_of_front isPyWs (s.dropWhile isPyWs) _
    · exact dropWhile_dropWhile _ _
    · rw [← List.reverse_suffix, List.reverse_reverse]
      exact List.dropWhile_suffix _
  rw [h1, List.reverse_reverse, h2]

theorem dropWhile_eq_self_of_head {p : Char → Bool} {s : Str}
    (h : ∀ c, s.head? = some c → p c = false) : s.dropWhile p = s := by
  cases s with
  | nil => rfl
  | cons c t => rw [List.dropWhile_cons, h c rfl]; simp

theorem pyStrip_eq_self {s : Str}
    (h1 : ∀ c, s.head? = some c → isPyWs c = false)
    (h2 : ∀ c, s.getLast? = some c → isPyWs c = false) : pyStrip s = s := by
  unfold pyStrip
  rw [dropWhile_eq_self_of_head h1]
  rw [dropWhile_eq_self_of_head (by intro c hc; rw [List.head?_reverse] at hc; exact h2 c hc)]
  exact List.reverse_reverse s

theorem suffix_append_split {s x y : Str} (h : s <:+ x ++ y) :
    (∃ x', x' <:+ x ∧ x' ≠ [] ∧ s = x' ++ y) ∨ s <:+ y := by
  induction x with
  | nil => right; simpa using h
  | cons c t ih =>
    rw [List.cons_append, List.suffix_cons_iff] at h
    rcases h with h | h
    · left; exact ⟨c :: t, List.suffix_refl _, by simp, by simpa using h⟩
    · rcases ih h with ⟨x', hx1, hx2, hx3⟩ | h2
      · left; exact ⟨x', hx1.trans (List.suffix_cons c t), hx2, hx3⟩
      · right; exact h2

theorem digit_not_ws {c : Char} (h : isDigitC c = true) : isPyWs c = false := by
  cases hw : isPyWs c
  · rfl
  · exfalso
    simp only [isPyWs, Bool.or_eq_true, decide_eq_true_eq] at hw
    rcases hw with ((((h1 | h1) | h1) | h1) | h1) | h1 <;>
      (subst h1; exact absurd h (by decide))

theorem getLast?_append_right {x y : Str} (hy : y ≠ []) :
    (x ++ y).getLast? = y.getLast? := by
  rw [List.getLast?_append]
  cases hl : y.getLast? with
  | none => exact absurd (List.getLast?_eq_none_iff.mp hl) hy
  | some c => rfl

/-! Idempotence of the Twitter normaliser. -/

theorem twMatchAt_sound {s g0 r u d : Str} (h : twMatchAt s = some (g0, r, u, d)) :
    u ≠ [] ∧ (∀ c ∈ u, c ≠ '/') ∧ d ≠ [] ∧ (∀ c ∈ d, isDigitC c = true) := by
  unfold twMatchAt at h
  simp only [Option.pure_def, Option.bind_eq_bind] at h
  cases h1 : litCI (s2l "http") s with
  | none => rw [h1] at h; cases h
  | some v1 =>
    rw [h1] at h
    obtain ⟨a1, r1⟩ := v1
    simp only [Option.some_bind] at h
    cases h3 : litCI (s2l "://") (optCI (s2l "s") (a1, r1).2).2 with
    | none => rw [h3] at h; cases h
    | some v3 =>
      rw [h3] at h
      obtain ⟨a3, r3⟩ := v3
      simp only [Option.some_bind] at h
      cases h4 : (match litCI (s2l "twitter.com/") (a3, r3).2 with
                  | some v => some v
                  | none => litCI (s2l "x.com/") (a3, r3).2) with
      | none => rw [h4] at h; cases h
      | some v4 =>
        rw [h4] at h
        obtain ⟨a4, r4⟩ := v4
        simp only [Option.some_bind] at h
        cases h5 : takeWhile1 (fun c => decide (c ≠ '/')) (a4, r4).2 with
        | none => rw [h5] at h; cases h
        | some v5 =>
          rw [h5] at h
          obtain ⟨u', r5⟩ := v5
          simp only [Option.some_bind] at h
          cases h6 : litCI (s2l "/status/") (u', r5).2 with
          | none => rw [h6] at h; cases h
          | some v6 =>
            rw [h6] at h
            obtain ⟨a6, r6⟩ := v6
            simp only [Option.some_bind] at h
            cases h7 : takeWhile1 isDigitC (a6, r6).2 with
            | none => rw [h7] at h; cases h
            | some v7 =>
              rw [h7] at h
              obtain ⟨d', r7⟩ := v7
              simp only [Option.some_bind, Option.some.injEq, Prod.mk.injEq] at h
              obtain ⟨-, -, hu, hd⟩ := h
              obtain ⟨hu1, hu2, -⟩ := takeWhile1_sound h5
              obtain ⟨hd1, hd2, -⟩ := takeWhile1_sound h7
              subst hu; subst hd
              refine ⟨hu1, ?_, hd1, hd2⟩
              intro c hc
              exact of_decide_eq_true (hu2 c hc)

theorem twMatchAt_canon {u d : Str} (hu : u ≠ []) (hu2 : ∀ c ∈ u, c ≠ '/')
    (hd : d ≠ []) (hd2 : ∀ c ∈ d, isDigitC c = true) :
    twMatchAt (s2l "https://x.com/" ++ (u ++ (s2l "/status/" ++ d)))
      = some (s2l "https://x.com/" ++ (u ++ (s2l "/status/" ++ d)), [], u, d) := by
  have e1 : s2l "https://x.com/" ++ (u ++ (s2l "/status/" ++ d))
      = s2l "http" ++ (s2l "s://x.com/" ++ (u ++ (s2l "/status/" ++ d))) := by
    rfl
  have e2 : s2l "s://x.com/" ++ (u ++ (s2l "/status/" ++ d))
      = s2l "s" ++ (s2l "://x.com/" ++ (u ++ (s2l "/status/" ++ d))) := by rfl
  rw [e1]
  unfold twMatchAt
  rw [litCI_self]
  simp only [Option.pure_def, Option.bind_eq_bind, Option.some_bind]
  rw [e2, optCI_self,
    show (s2l "://x.com/" ++ (u ++ (s2l "/status/" ++ d)))
      = s2l "://" ++ (s2l "x.com/" ++ (u ++ (s2l "/status/" ++ d))) from rfl,
    litCI_self]
  simp only [Option.some_bind]
  rw [show (s2l "x.com/" ++ (u ++ (s2l "/status/" ++ d)))
      = 'x' :: (s2l ".com/" ++ (u ++ (s2l "/status/" ++ d))) from rfl,
    show s2l "twitter.com/" = 't' :: s2l "witter.com/" from rfl,
    litCI_headFail (by decide),
    show ('x' :: (s2l ".com/" ++ (u ++ (s2l "/status/" ++ d))))
      = s2l "x.com/" ++ (u ++ (s2l "/status/" ++ d)) from rfl,
    litCI_self]
  simp only [Option.some_bind]
  rw [takeWhile1_append hu (by intro c hc; simpa using hu2 c hc)
      (by intro c hc; rw [show s2l "/status/" ++ d = '/' :: (s2l "status/" ++ d) from rfl] at hc;
          simp only [List.head?_cons, Option.some.injEq] at hc; subst hc; decide)]
  simp only [Option.some_bind]
  rw [litCI_self]
  simp only [Option.some_bind]
  rw [takeWhile1_all hd hd2]
  simp only [Option.some_bind]
  simp [List.append_assoc]

theorem twitter_norm_canon {u d : Str} (hu : u ≠ []) (hu2 : ∀ c ∈ u, c ≠ '/')
    (hd : d ≠ []) (hd2 : ∀ c ∈ d, isDigitC c = true) :
    twitter_normalize_url (s2l "https://x.com/" ++ u ++ s2l "/status/" ++ d)
      = s2l "https://x.com/" ++ u ++ s2l "/status/" ++ d := by
  have e : s2l "https://x.com/" ++ u ++ s2l "/status/" ++ d
      = s2l "https://x.com/" ++ (u ++ (s2l "/status/" ++ d)) := by
    simp [List.append_assoc]
  rw [e]
  have hstrip : pyStrip (s2l "https://x.com/" ++ (u ++ (s2l "/status/" ++ d)))
      = s2l "https://x.com/" ++ (u ++ (s2l "/status/" ++ d)) := by
    apply pyStrip_eq_self
    · intro c hc
      rw [show (s2l "https://x.com/" ++ (u ++ (s2l "/status/" ++ d)))
          = 'h' :: (s2l "ttps://x.com/" ++ (u ++ (s2l "/status/" ++ d))) from rfl] at hc
      simp only [List.head?_cons, Option.some.injEq] at hc
      subst hc; decide
    · intro c hc
      rw [getLast?_append_right (by simp [hd]),
          getLast?_append_right (by simp [hd]),
          getLast?_append_right hd] at hc
      exact digit_not_ws (hd2 c (List.mem_of_mem_getLast? hc))
  unfold twitter_normalize_url
  rw [hstrip]
  simp only [reSearch_of_matchAt (twMatchAt_canon hu hu2 hd hd2)]
  simp [List.append_assoc]

theorem twitter_norm_idem (url : Str) :
    twitter_normalize_url (twitter_normalize_url url) = twitter_normalize_url url := by
  have hin : twitter_normalize_url url =
      (match reSearch twMatchAt (pyStrip url) with
       | some (_, _, u, d) => s2l "https://x.com/" ++ u ++ s2l "/status/" ++ d
       | none => pyStrip url) := rfl
  cases h : reSearch twMatchAt (pyStrip url) with
  | none =>
    rw [hin, h]
    show (match reSearch twMatchAt (pyStrip (pyStrip url)) with
          | some (_, _, u, d) => s2l "https://x.com/" ++ u ++ s2l "/status/" ++ d
          | none => pyStrip (pyStrip url)) = pyStrip url
    rw [pyStrip_idem, h]
  | some v =>
    obtain ⟨g0, r, u, d⟩ := v
    rw [hin, h]
    show twitter_normalize_url (s2l "https://x.com/" ++ u ++ s2l "/status/" ++ d)
      = s2l "https://x.com/" ++ u ++ s2l "/status/" ++ d
    obtain ⟨t, -, hmt⟩ := reSearch_some h
    obtain ⟨hu, hu2, hd, hd2⟩ := twMatchAt_sound hmt
    exact twitter_norm_canon hu hu2 hd hd2

/-! Character-level inversion lemmas for case-insensitive matching, and
shape lemmas for the urlparse model. -/

theorem char_eq_of_toNat_eq {a b : Char} (h : a.toNat = b.toNat) : a = b :=
  Char.ext (UInt32.ext h)

theorem lowerEq_letter_inv {p c : Char} (hp : isLowerC p = true)
    (h : lowerEq p c = true) : c = p ∨ c.toNat + 32 = p.toNat := by
  simp only [lowerEq, Bool.or_eq_true, Bool.and_eq_true, decide_eq_true_eq] at h
  rcases h with (h | ⟨⟨hl, hu⟩, he⟩) | ⟨⟨hu, hl⟩, he⟩
  · exact Or.inl h.symm
  · exact Or.inr he.symm
  · exfalso
    have h1 : 'a' ≤ p ∧ p ≤ 'z' := by
      simpa [isLowerC, decide_eq_true_eq] using hp
    have h2 : 'A' ≤ p ∧ p ≤ 'Z' := by
      simpa [isUpperC, decide_eq_true_eq] using hu
    have := le_trans h1.1 h2.2
    exact absurd this (by decide)

theorem lowerEq_concrete {p up c : Char} (hp : isLowerC p = true)
    (hup : up.toNat + 32 = p.toNat) (h : lowerEq p c = true) : c = p ∨ c = up := by
  rcases lowerEq_letter_inv hp h with h1 | h1
  · exact Or.inl h1
  · right; apply char_eq_of_toNat_eq; omega

theorem splitFirst_append {c : Char} {x y : Str} (hx : ∀ d ∈ x, d ≠ c) :
    splitFirst c (x ++ c :: y) = some (x, y) := by
  induction x with
  | nil => simp [splitFirst]
  | cons d t ih =>
    have hd := hx d (by simp)
    rw [List.cons_append, splitFirst, if_neg hd, ih (fun e he => hx e (by simp [he]))]
    rfl

theorem splitFirst_none {c : Char} {s : Str} (hs : ∀ d ∈ s, d ≠ c) :
    splitFirst c s = none := by
  induction s with
  | nil => rfl
  | cons d t ih =>
    rw [splitFirst, if_neg (hs d (by simp)), ih (fun e he => hs e (by simp [he]))]
    rfl

theorem contains_eq_false_of_all {s : Str} {x : Char} (h : ∀ c ∈ s, c ≠ x) :
    s.contains x = false := by
  induction s with
  | nil => rfl
  | cons c t ih =>
    rw [List.contains_cons]
    have h1 : (x == c) = false := by
      cases he : x == c
      · rfl
      · exact absurd (eq_of_beq he).symm (h c (by simp))
    rw [h1, ih (fun e he => h e (by simp [he]))]
    rfl

theorem sanitize_eq_self {s : Str} (h : ∀ c ∈ s, isC0OrSpace c = false) :
    sanitizeUrl s = s := by
  unfold sanitizeUrl
  have h1 : s.dropWhile isC0OrSpace = s :=
    dropWhile_eq_self_of_head (fun c hc => h c (List.mem_of_mem_head? hc))
  rw [h1]
  have h2 : s.reverse.dropWhile isC0OrSpace = s.reverse :=
    dropWhile_eq_self_of_head (fun c hc => h c (by
      have := List.mem_of_mem_head? hc
      simpa using this))
  rw [h2, List.reverse_reverse]
  apply List.filter_eq_self.mpr
  intro c hc
  have hc0 := h c hc
  simp only [isC0OrSpace, decide_eq_false_iff_not] at hc0
  have t1 : c ≠ '\t' := fun he => hc0 (he ▸ (by decide : ('\t').toNat ≤ 32))
  have t2 : c ≠ '\r' := fun he => hc0 (he ▸ (by decide : ('\r').toNat ≤ 32))
  have t3 : c ≠ '\n' := fun he => hc0 (he ▸ (by decide : ('\n').toNat ≤ 32))
  simp [t1, t2, t3]

theorem splitScheme_shape {sch rest : Str} (h1 : sch ≠ [])
    (h2 : ∀ c ∈ sch, isAlphaC c = true) :
    splitScheme (sch ++ ':' :: rest) = (pyLower sch, rest) := by
  have hnc : ∀ d ∈ sch, d ≠ ':' := by
    intro d hd he
    subst he
    exact absurd (h2 _ hd) (by decide)
  cases sch with
  | nil => exact absurd rfl h1
  | cons c t =>
    have hca := h2 c (by simp)
    have hall : (c :: t).all isSchemeChar = true := by
      apply List.all_eq_true.mpr
      intro d hd
      have := h2 d hd
      simp [isSchemeChar, isAlnumC, this]
    unfold splitScheme
    rw [splitFirst_append hnc]
    simp [hca, hall]

/-- Shape of the urlparse model on a `scheme://host/path` URL whose parts
satisfy the character constraints arising for matched Instagram URLs. -/
theorem urlparse_schemeHostPath {sch host path : Str}
    (hs1 : sch ≠ []) (hs2 : ∀ c ∈ sch, isAlphaC c = true)
    (hh : ∀ c ∈ host, isNetlocEnd c = false)
    (hp1 : path.head? = some '/')
    (hp2 : ∀ c ∈ path, c ≠ '#' ∧ c ≠ '?' ∧ c ≠ ';')
    (hc0 : ∀ c ∈ sch ++ ':' :: '/' :: '/' :: (host ++ path), isC0OrSpace c = false) :
    urlparseM (sch ++ ':' :: '/' :: '/' :: (host ++ path))
      = ⟨pyLower sch, host, path, [], [], []⟩ := by
  have hsan := sanitize_eq_self hc0
  have hsch := @splitScheme_shape sch ('/' :: '/' :: (host ++ path)) hs1 hs2
  have hnet : splitNetloc ('/' :: '/' :: (host ++ path)) = (host, path) := by
    have htd := @takeWhile_dropWhile_append (fun c => !isNetlocEnd c) host path
      (fun c hc => by simp [hh c hc])
      (by
        intro c hc
        rw [hp1] at hc
        cases hc
        rfl)
    have hr : splitNetloc ('/' :: '/' :: (host ++ path))
        = ((host ++ path).takeWhile (fun c => !isNetlocEnd c),
           (host ++ path).dropWhile (fun c => !isNetlocEnd c)) := rfl
    rw [hr, htd.1, htd.2]
  have hfr : splitAtChar '#' path = (path, []) := by
    unfold splitAtChar
    rw [splitFirst_none (fun d hd => (hp2 d hd).1)]
  have hqu : splitAtChar '?' path = (path, []) := by
    unfold splitAtChar
    rw [splitFirst_none (fun d hd => (hp2 d hd).2.1)]
  have hsplit : urlsplitM (sch ++ ':' :: '/' :: '/' :: (host ++ path))
      = ⟨pyLower sch, host, path, [], [], []⟩ := by
    simp only [urlsplitM]
    rw [hsan, hsch]
    simp only []
    rw [hnet]
    simp only []
    rw [hfr]
    simp only []
    rw [hqu]
  have hnp : path.contains ';' = false :=
    contains_eq_false_of_all (fun d hd => (hp2 d hd).2.2)
  simp only [urlparseM]
  rw [hsplit]
  simp only [hnp, Bool.and_false, Bool.false_eq_true, if_false]

/-! Idempotence of the Instagram normaliser. -/

theorem litCI_consumed {p s a r : Str} (h : litCI p s = some (a, r)) :
    litCI p a = some (a, []) := by
  induction p generalizing s a r with
  | nil =>
    simp only [litCI, Option.some.injEq, Prod.mk.injEq] at h
    rw [← h.1]; rfl
  | cons pc pt ih =>
    cases s with
    | nil => simp [litCI] at h
    | cons c cs =>
      rw [litCI] at h
      by_cases hle : lowerEq pc c = true
      · rw [if_pos hle] at h
        cases hm : litCI pt cs with
        | none => rw [hm] at h; cases h
        | some v =>
          rw [hm] at h
          obtain ⟨a', r'⟩ := v
          simp only [Option.map_some', Option.some.injEq, Prod.mk.injEq] at h
          rw [← h.1, litCI, if_pos hle, ih hm]
          rfl
      · rw [if_neg hle] at h; cases h

theorem litCI_extend {p x r : Str} (h : litCI p x = some (x, [])) :
    litCI p (x ++ r) = some (x, r) := by
  induction p generalizing x with
  | nil =>
    simp only [litCI, Option.some.injEq, Prod.mk.injEq] at h
    rw [← h.1]
    rfl
  | cons pc pt ih =>
    cases x with
    | nil => simp [litCI] at h
    | cons c cs =>
      rw [litCI] at h
      by_cases hle : lowerEq pc c = true
      · rw [if_pos hle] at h
        cases hm : litCI pt cs with
        | none => rw [hm] at h; cases h
        | some v =>
          rw [hm] at h
          obtain ⟨a', r'⟩ := v
          simp only [Option.map_some', Option.some.injEq, Prod.mk.injEq] at h
          have ha : a' = cs := by
            have := congrArg List.tail h.1
            simpa using this
          have hr : r' = [] := h.2
          subst ha; subst hr
          rw [List.cons_append, litCI, if_pos hle, ih hm]
          rfl
      · rw [if_neg hle] at h; cases h

theorem litCI_full_inv {p : Char} {ps s : Str} (h : litCI (p :: ps) s = some (s, [])) :
    ∃ c s', s = c :: s' ∧ lowerEq p c = true ∧ litCI ps s' = some (s', []) := by
  cases s with
  | nil => simp [litCI] at h
  | cons c cs =>
    rw [litCI] at h
    by_cases hle : lowerEq p c = true
    · rw [if_pos hle] at h
      cases hm : litCI ps cs with
      | none => rw [hm] at h; cases h
      | some v =>
        rw [hm] at h
        obtain ⟨a', r'⟩ := v
        simp only [Option.map_some', Option.some.injEq, Prod.mk.injEq] at h
        have ha : a' = cs := by
          have := congrArg List.tail h.1
          simpa using this
        refine ⟨c, cs, rfl, hle, ?_⟩
        subst ha
        rw [hm, h.2]
    · rw [if_neg hle] at h; cases h

theorem litCI_nil_inv {s : Str} (h : litCI [] s = some (s, [])) : s = [] := by
  simp only [litCI, Option.some.injEq, Prod.mk.injEq] at h
  exact h.2

theorem optCI_sound {p s a r : Str} (h : optCI p s = (a, r)) :
    s = a ++ r ∧ ∀ c ∈ a, ∃ pc ∈ p, lowerEq pc c = true := by
  unfold optCI at h
  cases hm : litCI p s with
  | none =>
    rw [hm] at h
    simp only [Prod.mk.injEq] at h
    refine ⟨by rw [← h.1, ← h.2]; simp, ?_⟩
    intro c hc
    rw [← h.1] at hc
    cases hc
  | some v =>
    obtain ⟨a', r'⟩ := v
    rw [hm] at h
    simp only [Prod.mk.injEq] at h
    rw [← h.1, ← h.2]
    exact ⟨litCI_append hm, litCI_chars hm⟩

theorem toNat_le_of_le {a b : Char} (h : a ≤ b) : a.toNat ≤ b.toNat := by
  exact h

theorem alpha_not_c0 {c : Char} (h : isAlphaC c = true) : isC0OrSpace c = false := by
  have hb : 65 ≤ c.toNat := by
    simp only [isAlphaC, Bool.or_eq_true] at h
    rcases h with h | h
    · have h1 : 'A' ≤ c := by
        simp only [isUpperC, Bool.and_eq_true, decide_eq_true_eq] at h
        exact h.1
      have h2 := toNat_le_of_le h1
      have ha : ('A').toNat = 65 := rfl
      rw [ha] at h2
      omega
    · have h1 : 'a' ≤ c := by
        simp only [isLowerC, Bool.and_eq_true, decide_eq_true_eq] at h
        exact h.1
      have h2 := toNat_le_of_le h1
      have ha : ('a').toNat = 97 := rfl
      rw [ha] at h2
      omega
  simp only [isC0OrSpace, decide_eq_false_iff_not]
  omega

theorem codeC_not_c0 {c : Char} (h : isCodeC c = true) : isC0OrSpace c = false := by
  simp only [isCodeC, Bool.or_eq_true] at h
  rcases h with (h | h) | h
  · simp only [isAlnumC, Bool.or_eq_true] at h
    rcases h with h | h
    · exact alpha_not_c0 h
    · have h1 : '0' ≤ c := by
        simp only [isDigitC, Bool.and_eq_true, decide_eq_true_eq] at h
        exact h.1
      have h2 := toNat_le_of_le h1
      have ha : ('0').toNat = 48 := rfl
      rw [ha] at h2
      simp only [isC0OrSpace, decide_eq_false_iff_not]
      omega
  · simp only [decide_eq_true_eq] at h
    subst h; decide
  · simp only [decide_eq_true_eq] at h
    subst h; decide

theorem alpha_not_netlocEnd {c : Char} (h : isAlphaC c = true) :
    isNetlocEnd c = false := by
  cases hn : isNetlocEnd c
  · rfl
  · exfalso
    simp only [isNetlocEnd, Bool.or_eq_true, decide_eq_true_eq] at hn
    rcases hn with (h1 | h1) | h1 <;> (subst h1; exact absurd h (by decide))

theorem litCI_length {p s a r : Str} (h : litCI p s = some (a, r)) :
    a.length = p.length := by
  induction p generalizing s a r with
  | nil =>
    simp only [litCI, Option.some.injEq, Prod.mk.injEq] at h
    rw [← h.1]
  | cons pc pt ih =>
    cases s with
    | nil => simp [litCI] at h
    | cons c cs =>
      rw [litCI] at h
      by_cases hle : lowerEq pc c = true
      · rw [if_pos hle] at h
        cases hm : litCI pt cs with
        | none => rw [hm] at h; cases h
        | some v =>
          rw [hm] at h
          obtain ⟨a', r'⟩ := v
          simp only [Option.map_some', Option.some.injEq, Prod.mk.injEq] at h
          rw [← h.1]
          simp [ih hm]
      · rw [if_neg hle] at h; cases h

theorem lowerEq_alpha {p c : Char} (hp : isAlphaC p = true) (h : lowerEq p c = true) :
    isAlphaC c = true := by
  simp only [lowerEq, Bool.or_eq_true, Bool.and_eq_true, decide_eq_true_eq] at h
  rcases h with (h | ⟨⟨h1, h2⟩, _⟩) | ⟨⟨h1, h2⟩, _⟩
  · rw [← h]; exact hp
  · simp [isAlphaC, h2]
  · simp [isAlphaC, h2]

theorem igTryKind_sound {k r6 kt r7 cd : Str} (h : igTryKind k r6 = some (kt, r7, cd)) :
    ∃ kRaw, kt = kRaw ++ '/' :: cd ∧ litCI k kRaw = some (kRaw, [])
      ∧ r6 = kRaw ++ '/' :: (cd ++ r7) ∧ cd ≠ [] ∧ (∀ c ∈ cd, isCodeC c = true) := by
  unfold igTryKind at h
  simp only [Option.pure_def, Option.bind_eq_bind] at h
  cases h1 : litCI k r6 with
  | none => rw [h1] at h; cases h
  | some v1 =>
    rw [h1] at h
    obtain ⟨ak, r1⟩ := v1
    simp only [Option.some_bind] at h
    cases h2 : litCI (s2l "/") (ak, r1).2 with
    | none => rw [h2] at h; cases h
    | some v2 =>
      rw [h2] at h
      obtain ⟨sl, r2⟩ := v2
      simp only [Option.some_bind] at h
      cases h3 : takeWhile1 isCodeC (sl, r2).2 with
      | none => rw [h3] at h; cases h
      | some v3 =>
        rw [h3] at h
        obtain ⟨cd', r3⟩ := v3
        simp only [Option.some_bind, Option.some.injEq, Prod.mk.injEq] at h
        obtain ⟨hkt, hr7, hcd⟩ := h
        have hsl := litCI_exact (by decide) h2
        obtain ⟨hc1, hc2, hc3⟩ := takeWhile1_sound h3
        have hr1 : r1 = s2l "/" ++ r2 := hsl.2
        have hc3' : r2 = cd' ++ r3 := hc3
        refine ⟨ak, ?_, litCI_consumed h1, ?_, ?_, ?_⟩
        · rw [← hkt, ← hcd, hsl.1]
          simp [List.append_assoc]
          rfl
        · rw [litCI_append h1, hr1, hc3', ← hcd, ← hr7]
          rfl
        · rw [← hcd]; exact hc1
        · rw [← hcd]; exact hc2

theorem igMatchAt_sound {s g0 r cd : Str} (h : igMatchAt s = some (g0, r, cd)) :
    ∃ sch host kRaw,
      g0 = sch ++ ':' :: '/' :: '/' :: (host ++ ('/' :: (kRaw ++ ('/' :: cd)))) ∧
      sch ≠ [] ∧ (∀ c ∈ sch, isAlphaC c = true) ∧
      (∀ c ∈ host, ∃ pc ∈ s2l "www.instagram.com", lowerEq pc c = true) ∧
      (litCI (s2l "p") kRaw = some (kRaw, []) ∨ litCI (s2l "reel") kRaw = some (kRaw, [])
        ∨ litCI (s2l "reels") kRaw = some (kRaw, []) ∨ litCI (s2l "tv") kRaw = some (kRaw, [])) ∧
      cd ≠ [] ∧ (∀ c ∈ cd, isCodeC c = true) := by
  unfold igMatchAt at h
  simp only [Option.pure_def, Option.bind_eq_bind] at h
  cases h1 : litCI (s2l "http") s with
  | none => rw [h1] at h; cases h
  | some v1 =>
    rw [h1] at h
    obtain ⟨a1, r1⟩ := v1
    simp only [Option.some_bind] at h
    cases h3 : litCI (s2l "://") (optCI (s2l "s") (a1, r1).2).2 with
    | none => rw [h3] at h; cases h
    | some v3 =>
      rw [h3] at h
      obtain ⟨a3, r3⟩ := v3
      simp only [Option.some_bind] at h
      cases h5 : litCI (s2l "instagram.com") (optCI (s2l "www.") (a3, r3).2).2 with
      | none => rw [h5] at h; cases h
      | some v5 =>
        rw [h5] at h
        obtain ⟨a5, r5⟩ := v5
        simp only [Option.some_bind] at h
        cases h6 : litCI (s2l "/") (a5, r5).2 with
        | none => rw [h6] at h; cases h
        | some v6 =>
          rw [h6] at h
          obtain ⟨sl, r6⟩ := v6
          simp only [Option.some_bind] at h
          cases h7 : ((igTryKind (s2l "p") (sl, r6).2).orElse fun _ =>
              (igTryKind (s2l "reel") (sl, r6).2).orElse fun _ =>
              (igTryKind (s2l "reels") (sl, r6).2).orElse fun _ =>
               igTryKind (s2l "tv") (sl, r6).2) with
          | none => rw [h7] at h; cases h
          | some v7 =>
            rw [h7] at h
            obtain ⟨kt, r7, cd'⟩ := v7
            simp only [Option.some_bind, Option.some.injEq, Prod.mk.injEq] at h
            obtain ⟨hg0, hr, hcd⟩ := h
            -- which kind alternative succeeded
            have hkind : ∃ kRaw, kt = kRaw ++ '/' :: cd' ∧
                (litCI (s2l "p") kRaw = some (kRaw, []) ∨
                 litCI (s2l "reel") kRaw = some (kRaw, []) ∨
                 litCI (s2l "reels") kRaw = some (kRaw, []) ∨
                 litCI (s2l "tv") kRaw = some (kRaw, [])) ∧
                cd' ≠ [] ∧ (∀ c ∈ cd', isCodeC c = true) := by
              rcases ho1 : igTryKind (s2l "p") (sl, r6).2 with _ | w1
              · rcases ho2 : igTryKind (s2l "reel") (sl, r6).2 with _ | w2
                · rcases ho3 : igTryKind (s2l "reels") (sl, r6).2 with _ | w3
                  · rcases ho4 : igTryKind (s2l "tv") (sl, r6).2 with _ | w4
                    · rw [ho1, ho2, ho3, ho4] at h7
                      simp [Option.orElse] at h7
                    · rw [ho1, ho2, ho3, ho4] at h7
                      simp only [Option.orElse] at h7
                      cases h7
                      obtain ⟨kRaw, hk1, hk2, -, hk4, hk5⟩ := igTryKind_sound ho4
                      exact ⟨kRaw, hk1, Or.inr (Or.inr (Or.inr hk2)), hk4, hk5⟩
                  · rw [ho1, ho2, ho3] at h7
                    simp only [Option.orElse] at h7
                    cases h7
                    obtain ⟨kRaw, hk1, hk2, -, hk4, hk5⟩ := igTryKind_sound ho3
                    exact ⟨kRaw, hk1, Or.inr (Or.inr (Or.inl hk2)), hk4, hk5⟩
                · rw [ho1, ho2] at h7
                  simp only [Option.orElse] at h7
                  cases h7
                  obtain ⟨kRaw, hk1, hk2, -, hk4, hk5⟩ := igTryKind_sound ho2
                  exact ⟨kRaw, hk1, Or.inr (Or.inl hk2), hk4, hk5⟩
              · rw [ho1] at h7
                simp only [Option.orElse] at h7
                cases h7
                obtain ⟨kRaw, hk1, hk2, -, hk4, hk5⟩ := igTryKind_sound ho1
                exact ⟨kRaw, hk1, Or.inl hk2, hk4, hk5⟩
            obtain ⟨kRaw, hk1, hk2, hk4, hk5⟩ := hkind
            have hsl := litCI_exact (by decide) h6
            have ha3 := litCI_exact (by decide) h3
            obtain ⟨ho1a, ho1b⟩ := @optCI_sound (s2l "s") (a1, r1).2
              (optCI (s2l "s") (a1, r1).2).1 (optCI (s2l "s") (a1, r1).2).2 rfl
            obtain ⟨ho2a, ho2b⟩ := @optCI_sound (s2l "www.") (a3, r3).2
              (optCI (s2l "www.") (a3, r3).2).1 (optCI (s2l "www.") (a3, r3).2).2 rfl
            refine ⟨a1 ++ (optCI (s2l "s") (a1, r1).2).1,
                    (optCI (s2l "www.") (a3, r3).2).1 ++ a5, kRaw, ?_, ?_, ?_, ?_, ?_, ?_, ?_⟩
            · rw [← hg0, ha3.1, hsl.1, hk1, ← hcd]
              simp only [show (s2l "://" : Str) = ':' :: '/' :: '/' :: [] from rfl,
                show (s2l "/" : Str) = ['/'] from rfl, List.cons_append, List.nil_append,
                List.append_assoc]
            · intro he
              have hl := congrArg List.length he
              have h1l := litCI_length h1
              simp at hl
              rw [hl.1] at h1l
              simp [s2l] at h1l
            · intro c hc
              rcases List.mem_append.mp hc with hc | hc
              · obtain ⟨pc, hpc, hple⟩ := litCI_chars h1 c hc
                have hpa : isAlphaC pc = true := by
                  have : ∀ x ∈ s2l "http", isAlphaC x = true := by decide
                  exact this pc hpc
                exact lowerEq_alpha hpa hple
              · obtain ⟨pc, hpc, hple⟩ := ho1b c hc
                have hpa : isAlphaC pc = true := by
                  have : ∀ x ∈ s2l "s", isAlphaC x = true := by decide
                  exact this pc hpc
                exact lowerEq_alpha hpa hple
            · intro c hc
              rcases List.mem_append.mp hc with hc | hc
              · obtain ⟨pc, hpc, hple⟩ := ho2b c hc
                refine ⟨pc, ?_, hple⟩
                have : ∀ x ∈ s2l "www.", x ∈ s2l "www.instagram.com" := by decide
                exact this pc hpc
              · obtain ⟨pc, hpc, hple⟩ := litCI_chars h5 c hc
                refine ⟨pc, ?_, hple⟩
                have : ∀ x ∈ s2l "instagram.com", x ∈ s2l "www.instagram.com" := by decide
                exact this pc hpc
            · exact hk2
            · rw [← hcd]; exact hk4
            · rw [← hcd]; exact hk5

theorem igTryKind_reparse {k kRaw cd rest : Str}
    (hk : litCI k kRaw = some (kRaw, []))
    (hcd1 : cd ≠ []) (hcd2 : ∀ c ∈ cd, isCodeC c = true)
    (hrest : ∀ c, rest.head? = some c → isCodeC c = false) :
    igTryKind k (kRaw ++ '/' :: (cd ++ rest)) = some (kRaw ++ '/' :: cd, rest, cd) := by
  unfold igTryKind
  rw [show (kRaw ++ '/' :: (cd ++ rest)) = kRaw ++ (s2l "/" ++ (cd ++ rest)) from rfl,
    litCI_extend hk]
  simp only [Option.pure_def, Option.bind_eq_bind, Option.some_bind]
  rw [litCI_self]
  simp only [Option.some_bind]
  rw [takeWhile1_append hcd1 hcd2 hrest]
  simp only [Option.some_bind]
  simp [List.append_assoc]
  rfl

theorem igTryKind_fail_head {k0 c : Char} {ks t : Str} (hne : lowerEq k0 c = false) :
    igTryKind (k0 :: ks) (c :: t) = none := by
  unfold igTryKind
  rw [litCI_headFail hne]
  rfl

/-- The kind alternation of the Instagram pattern re-applied to a canonical
match: tried in pattern order with backtracking, it returns the original
kind text and code. -/
theorem igKindAlt_reparse {kRaw cd rest : Str}
    (hk : litCI (s2l "p") kRaw = some (kRaw, []) ∨ litCI (s2l "reel") kRaw = some (kRaw, [])
      ∨ litCI (s2l "reels") kRaw = some (kRaw, []) ∨ litCI (s2l "tv") kRaw = some (kRaw, []))
    (hcd1 : cd ≠ []) (hcd2 : ∀ c ∈ cd, isCodeC c = true)
    (hrest : ∀ c, rest.head? = some c → isCodeC c = false) :
    ((igTryKind (s2l "p") (kRaw ++ '/' :: (cd ++ rest))).orElse fun _ =>
     (igTryKind (s2l "reel") (kRaw ++ '/' :: (cd ++ rest))).orElse fun _ =>
     (igTryKind (s2l "reels") (kRaw ++ '/' :: (cd ++ rest))).orElse fun _ =>
      igTryKind (s2l "tv") (kRaw ++ '/' :: (cd ++ rest)))
      = some (kRaw ++ '/' :: cd, rest, cd) := by
  rcases hk with hk | hk | hk | hk
  · rw [igTryKind_reparse hk hcd1 hcd2 hrest]
    rfl
  · -- kRaw is a case variant of "reel": the "p" branch fails on its head
    obtain ⟨c1, s1, he1, hle1, hk1⟩ := litCI_full_inv hk
    have hp1 : lowerEq 'p' c1 = false := by
      rcases lowerEq_concrete (by decide) (by decide : ('R').toNat + 32 = ('r').toNat) hle1
        with h | h <;> (subst h; decide)
    rw [he1]
    rw [show ((c1 :: s1) ++ '/' :: (cd ++ rest)) = c1 :: (s1 ++ '/' :: (cd ++ rest)) from rfl,
      show (s2l "p" : Str) = ['p'] from rfl, igTryKind_fail_head hp1]
    rw [show (c1 :: (s1 ++ '/' :: (cd ++ rest))) = (c1 :: s1) ++ '/' :: (cd ++ rest) from rfl,
      ← he1, igTryKind_reparse hk hcd1 hcd2 hrest]
    rfl
  · -- kRaw is a case variant of "reels"
    obtain ⟨c1, s1, he1, hle1, hk1⟩ := litCI_full_inv hk
    obtain ⟨c2, s2, he2, hle2, hk2⟩ := litCI_full_inv hk1
    obtain ⟨c3, s3, he3, hle3, hk3⟩ := litCI_full_inv hk2
    obtain ⟨c4, s4, he4, hle4, hk4⟩ := litCI_full_inv hk3
    obtain ⟨c5, s5, he5, hle5, hk5⟩ := litCI_full_inv hk4
    have hs5 := litCI_nil_inv hk5
    have hp1 : lowerEq 'p' c1 = false := by
      rcases lowerEq_concrete (by decide) (by decide : ('R').toNat + 32 = ('r').toNat) hle1
        with h | h <;> (subst h; decide)
    have hsl5 : lowerEq '/' c5 = false := by
      rcases lowerEq_concrete (by decide) (by decide : ('S').toNat + 32 = ('s').toNat) hle5
        with h | h <;> (subst h; decide)
    have hkr : kRaw = c1 :: c2 :: c3 :: c4 :: [c5] := by
      rw [he1, he2, he3, he4, he5, hs5]
    -- the "p" branch fails on the head
    rw [hkr]
    rw [show ((c1 :: c2 :: c3 :: c4 :: [c5]) ++ '/' :: (cd ++ rest))
        = c1 :: (c2 :: c3 :: c4 :: c5 :: '/' :: (cd ++ rest)) from rfl,
      show (s2l "p" : Str) = ['p'] from rfl, igTryKind_fail_head hp1]
    -- the "reel" branch consumes four characters and then fails on c5
    have hreel : litCI (s2l "reel") (c1 :: c2 :: c3 :: c4 :: [c5])
        = some (c1 :: c2 :: c3 :: [c4], [c5]) := by
      simp [litCI, hle1, hle2, hle3, hle4]
    have hfail2 : igTryKind (s2l "reel") (c1 :: c2 :: c3 :: c4 :: c5 :: '/' :: (cd ++ rest))
        = none := by
      unfold igTryKind
      have hx : litCI (s2l "reel") ((c1 :: c2 :: c3 :: [c4]) ++ (c5 :: '/' :: (cd ++ rest)))
          = some (c1 :: c2 :: c3 :: [c4], c5 :: '/' :: (cd ++ rest)) :=
        litCI_extend (by simp [litCI, hle1, hle2, hle3, hle4])
      rw [show (c1 :: c2 :: c3 :: c4 :: c5 :: '/' :: (cd ++ rest))
          = (c1 :: c2 :: c3 :: [c4]) ++ (c5 :: '/' :: (cd ++ rest)) from rfl, hx]
      simp only [Option.pure_def, Option.bind_eq_bind, Option.some_bind]
      rw [show (s2l "/" : Str) = ['/'] from rfl, litCI_headFail hsl5]
      rfl
    rw [hfail2]
    rw [show (c1 :: (c2 :: c3 :: c4 :: c5 :: '/' :: (cd ++ rest)))
        = (c1 :: c2 :: c3 :: c4 :: [c5]) ++ '/' :: (cd ++ rest) from rfl,
      ← hkr, igTryKind_reparse hk hcd1 hcd2 hrest]
    rfl
  · -- kRaw is a case variant of "tv"
    obtain ⟨c1, s1, he1, hle1, hk1⟩ := litCI_full_inv hk
    have hp1 : lowerEq 'p' c1 = false := by
      rcases lowerEq_concrete (by decide) (by decide : ('T').toNat + 32 = ('t').toNat) hle1
        with h | h <;> (subst h; decide)
    have hr1 : lowerEq 'r' c1 = false := by
      rcases lowerEq_concrete (by decide) (by decide : ('T').toNat + 32 = ('t').toNat) hle1
        with h | h <;> (subst h; decide)
    rw [he1]
    rw [show ((c1 :: s1) ++ '/' :: (cd ++ rest)) = c1 :: (s1 ++ '/' :: (cd ++ rest)) from rfl,
      show (s2l "p" : Str) = ['p'] from rfl,
      show (s2l "reel" : Str) = 'r' :: s2l "eel" from rfl,
      show (s2l "reels" : Str) = 'r' :: s2l "eels" from rfl,
      igTryKind_fail_head hp1, igTryKind_fail_head hr1, igTryKind_fail_head hr1]
    rw [show (c1 :: (s1 ++ '/' :: (cd ++ rest))) = (c1 :: s1) ++ '/' :: (cd ++ rest) from rfl,
      ← he1, igTryKind_reparse hk hcd1 hcd2 hrest]
    rfl

theorem alpha_not_special {c : Char} (h : isAlphaC c = true) :
    c ≠ '#' ∧ c ≠ '?' ∧ c ≠ ';' :=
  ⟨fun he => by subst he; exact absurd h (by decide),
   fun he => by subst he; exact absurd h (by decide),
   fun he => by subst he; exact absurd h (by decide)⟩

theorem codeC_not_special {c : Char} (h : isCodeC c = true) :
    c ≠ '#' ∧ c ≠ '?' ∧ c ≠ ';' :=
  ⟨fun he => by subst he; exact absurd h (by decide),
   fun he => by subst he; exact absurd h (by decide),
   fun he => by subst he; exact absurd h (by decide)⟩

theorem kRaw_alpha {kRaw : Str}
    (hk : litCI (s2l "p") kRaw = some (kRaw, []) ∨ litCI (s2l "reel") kRaw = some (kRaw, [])
      ∨ litCI (s2l "reels") kRaw = some (kRaw, []) ∨ litCI (s2l "tv") kRaw = some (kRaw, [])) :
    ∀ c ∈ kRaw, isAlphaC c = true := by
  intro c hc
  rcases hk with hk | hk | hk | hk
  · obtain ⟨pc, hpc, hple⟩ := litCI_chars hk c hc
    have h0 : ∀ x ∈ s2l "p", isAlphaC x = true := by decide
    exact lowerEq_alpha (h0 pc hpc) hple
  · obtain ⟨pc, hpc, hple⟩ := litCI_chars hk c hc
    have h0 : ∀ x ∈ s2l "reel", isAlphaC x = true := by decide
    exact lowerEq_alpha (h0 pc hpc) hple
  · obtain ⟨pc, hpc, hple⟩ := litCI_chars hk c hc
    have h0 : ∀ x ∈ s2l "reels", isAlphaC x = true := by decide
    exact lowerEq_alpha (h0 pc hpc) hple
  · obtain ⟨pc, hpc, hple⟩ := litCI_chars hk c hc
    have h0 : ∀ x ∈ s2l "tv", isAlphaC x = true := by decide
    exact lowerEq_alpha (h0 pc hpc) hple

theorem ig_host_facts {host : Str}
    (hhost : ∀ c ∈ host, ∃ pc ∈ s2l "www.instagram.com", lowerEq pc c = true) :
    (∀ c ∈ host, isNetlocEnd c = false) ∧ (∀ c ∈ host, isC0OrSpace c = false) := by
  have hcls : ∀ c ∈ host, isAlphaC c = true ∨ c = '.' := by
    intro c hc
    obtain ⟨pc, hpc, hple⟩ := hhost c hc
    have h0 : ∀ x ∈ s2l "www.instagram.com", isAlphaC x = true ∨ x = '.' := by decide
    rcases h0 pc hpc with h | h
    · left; exact lowerEq_alpha h hple
    · right; subst h
      exact lowerEq_nonalpha (by decide) (by decide) hple
  constructor <;> intro c hc <;> rcases hcls c hc with h | h
  · exact alpha_not_netlocEnd h
  · subst h; decide
  · exact alpha_not_c0 h
  · subst h; decide

theorem ig_pathF_facts {kRaw cd : Str}
    (hkA : ∀ c ∈ kRaw, isAlphaC c = true)
    (hcd2 : ∀ c ∈ cd, isCodeC c = true) :
    (∀ c ∈ ('/' :: (kRaw ++ ('/' :: (cd ++ ['/'])))), c ≠ '#' ∧ c ≠ '?' ∧ c ≠ ';')
    ∧ (∀ c ∈ ('/' :: (kRaw ++ ('/' :: (cd ++ ['/'])))), isC0OrSpace c = false) := by
  have hcases : ∀ c ∈ ('/' :: (kRaw ++ ('/' :: (cd ++ ['/'])))),
      c = '/' ∨ isAlphaC c = true ∨ isCodeC c = true := by
    intro c hc
    rcases List.mem_cons.mp hc with h | h
    · exact Or.inl h
    rcases List.mem_append.mp h with h | h
    · exact Or.inr (Or.inl (hkA c h))
    rcases List.mem_cons.mp h with h | h
    · exact Or.inl h
    rcases List.mem_append.mp h with h | h
    · exact Or.inr (Or.inr (hcd2 c h))
    · rcases List.mem_singleton.mp h with rfl
      exact Or.inl rfl
  constructor <;> intro c hc <;> rcases hcases c hc with h | h | h
  · subst h; exact ⟨by decide, by decide, by decide⟩
  · exact alpha_not_special h
  · exact codeC_not_special h
  · subst h; decide
  · exact alpha_not_c0 h
  · exact codeC_not_c0 h

theorem igMatchAt_canon {kRaw cd : Str}
    (hk : litCI (s2l "p") kRaw = some (kRaw, []) ∨ litCI (s2l "reel") kRaw = some (kRaw, [])
      ∨ litCI (s2l "reels") kRaw = some (kRaw, []) ∨ litCI (s2l "tv") kRaw = some (kRaw, []))
    (hcd1 : cd ≠ []) (hcd2 : ∀ c ∈ cd, isCodeC c = true) :
    igMatchAt (s2l "https://www.instagram.com" ++ ('/' :: (kRaw ++ ('/' :: (cd ++ ['/'])))))
      = some (s2l "https://www.instagram.com" ++ ('/' :: (kRaw ++ ('/' :: cd))), ['/'], cd) := by
  unfold igMatchAt
  rw [show (s2l "https://www.instagram.com" ++ ('/' :: (kRaw ++ ('/' :: (cd ++ ['/'])))))
      = s2l "http"
        ++ (s2l "s://www.instagram.com" ++ ('/' :: (kRaw ++ ('/' :: (cd ++ ['/'])))))
      from rfl, litCI_self]
  simp only [Option.pure_def, Option.bind_eq_bind, Option.some_bind]
  rw [show (s2l "s://www.instagram.com" ++ ('/' :: (kRaw ++ ('/' :: (cd ++ ['/'])))))
      = s2l "s" ++ (s2l "://www.instagram.com" ++ ('/' :: (kRaw ++ ('/' :: (cd ++ ['/'])))))
      from rfl, optCI_self,
    show (s2l "://www.instagram.com" ++ ('/' :: (kRaw ++ ('/' :: (cd ++ ['/'])))))
      = s2l "://" ++ (s2l "www.instagram.com" ++ ('/' :: (kRaw ++ ('/' :: (cd ++ ['/'])))))
      from rfl, litCI_self]
  simp only [Option.some_bind]
  rw [show (s2l "www.instagram.com" ++ ('/' :: (kRaw ++ ('/' :: (cd ++ ['/'])))))
      = s2l "www." ++ (s2l "instagram.com" ++ ('/' :: (kRaw ++ ('/' :: (cd ++ ['/'])))))
      from rfl, optCI_self, litCI_self]
  simp only [Option.some_bind]
  rw [show ('/' :: (kRaw ++ ('/' :: (cd ++ ['/']))))
      = s2l "/" ++ (kRaw ++ ('/' :: (cd ++ ['/']))) from rfl, litCI_self]
  simp only [Option.some_bind]
  rw [show (kRaw ++ ('/' :: (cd ++ ['/']))) = kRaw ++ '/' :: (cd ++ ['/']) from rfl,
    igKindAlt_reparse hk hcd1 hcd2
      (by intro c hc; simp only [List.head?_cons, Option.some.injEq] at hc; subst hc; decide)]
  simp only [Option.some_bind]
  rfl

theorem codeC_last_ne_slash {cd : Str} (hcd2 : ∀ c ∈ cd, isCodeC c = true) :
    cd.getLast? ≠ some '/' := by
  intro h
  have := hcd2 '/' (List.mem_of_mem_getLast? h)
  exact absurd this (by decide)

theorem ig_g0_last {sch host kRaw cd : Str} (hcd1 : cd ≠ []) :
    (sch ++ ':' :: '/' :: '/' :: (host ++ ('/' :: (kRaw ++ ('/' :: cd))))).getLast?
      = cd.getLast? := by
  rw [getLast?_append_right (by simp :
      ((':' :: '/' :: '/' :: (host ++ ('/' :: (kRaw ++ ('/' :: cd))))) : Str) ≠ [])]
  rw [show ((':' :: '/' :: '/' :: (host ++ ('/' :: (kRaw ++ ('/' :: cd))))) : Str)
      = [':', '/', '/'] ++ (host ++ ('/' :: (kRaw ++ ('/' :: cd)))) from rfl]
  rw [getLast?_append_right (by simp), getLast?_append_right (by simp)]
  rw [show (('/' :: (kRaw ++ ('/' :: cd))) : Str) = ['/'] ++ (kRaw ++ ('/' :: cd)) from rfl]
  rw [getLast?_append_right (by simp [hcd1]), getLast?_append_right (by simp [hcd1])]
  rw [show (('/' :: cd) : Str) = ['/'] ++ cd from rfl]
  rw [getLast?_append_right hcd1]

theorem instagram_norm_some {url g0 r cd : Str}
    (h : reSearch igMatchAt (pyStrip url) = some (g0, r, cd)) :
    ∃ kRaw,
      (litCI (s2l "p") kRaw = some (kRaw, []) ∨ litCI (s2l "reel") kRaw = some (kRaw, [])
        ∨ litCI (s2l "reels") kRaw = some (kRaw, []) ∨ litCI (s2l "tv") kRaw = some (kRaw, []))
      ∧ cd ≠ [] ∧ (∀ c ∈ cd, isCodeC c = true)
      ∧ instagram_normalize_url url
          = s2l "https://www.instagram.com" ++ ('/' :: (kRaw ++ ('/' :: (cd ++ ['/'])))) := by
  obtain ⟨t, -, hmt⟩ := reSearch_some h
  obtain ⟨sch, host, kRaw, hg0, hs1, hs2, hhost, hk, hcd1, hcd2⟩ := igMatchAt_sound hmt
  refine ⟨kRaw, hk, hcd1, hcd2, ?_⟩
  have hin : instagram_normalize_url url =
      (match reSearch igMatchAt (pyStrip url) with
       | some (g0, _, _) =>
         s2l "https://www.instagram.com"
           ++ (urlparseM (if g0.getLast? = some '/' then g0 else g0 ++ ['/'])).path
       | none => pyStrip url) := rfl
  rw [hin, h]
  show s2l "https://www.instagram.com"
      ++ (urlparseM (if g0.getLast? = some '/' then g0 else g0 ++ ['/'])).path = _
  have hlast : ¬ (g0.getLast? = some '/') := by
    rw [hg0, ig_g0_last hcd1]
    exact codeC_last_ne_slash hcd2
  rw [if_neg hlast]
  have hfm : g0 ++ ['/'] = sch ++ ':' :: '/' :: '/'
      :: (host ++ ('/' :: (kRaw ++ ('/' :: (cd ++ ['/']))))) := by
    rw [hg0]
    simp [List.append_assoc]
  have hkA := kRaw_alpha hk
  obtain ⟨hpf1, hpf2⟩ := ig_pathF_facts hkA hcd2
  obtain ⟨hh1, hh2⟩ := ig_host_facts hhost
  have hc0 : ∀ c ∈ sch ++ ':' :: '/' :: '/'
      :: (host ++ ('/' :: (kRaw ++ ('/' :: (cd ++ ['/']))))), isC0OrSpace c = false := by
    intro c hc
    rcases List.mem_append.mp hc with hcs | hcs
    · exact alpha_not_c0 (hs2 c hcs)
    rcases List.mem_cons.mp hcs with rfl | hcs
    · decide
    rcases List.mem_cons.mp hcs with rfl | hcs
    · decide
    rcases List.mem_cons.mp hcs with rfl | hcs
    · decide
    rcases List.mem_append.mp hcs with hcs | hcs
    · exact hh2 c hcs
    · exact hpf2 c hcs
  have hup := urlparse_schemeHostPath hs1 hs2 hh1
      (rfl : (('/' :: (kRaw ++ ('/' :: (cd ++ ['/'])))) : Str).head? = some '/') hpf1 hc0
  rw [hfm, hup]

theorem instagram_norm_canonFix {kRaw cd : Str}
    (hk : litCI (s2l "p") kRaw = some (kRaw, []) ∨ litCI (s2l "reel") kRaw = some (kRaw, [])
      ∨ litCI (s2l "reels") kRaw = some (kRaw, []) ∨ litCI (s2l "tv") kRaw = some (kRaw, []))
    (hcd1 : cd ≠ []) (hcd2 : ∀ c ∈ cd, isCodeC c = true) :
    instagram_normalize_url
        (s2l "https://www.instagram.com" ++ ('/' :: (kRaw ++ ('/' :: (cd ++ ['/'])))))
      = s2l "https://www.instagram.com" ++ ('/' :: (kRaw ++ ('/' :: (cd ++ ['/'])))) := by
  have hkA := kRaw_alpha hk
  obtain ⟨hpf1, hpf2⟩ := ig_pathF_facts hkA hcd2
  have hstrip : pyStrip (s2l "https://www.instagram.com"
      ++ ('/' :: (kRaw ++ ('/' :: (cd ++ ['/']))))) =
      s2l "https://www.instagram.com" ++ ('/' :: (kRaw ++ ('/' :: (cd ++ ['/'])))) := by
    apply pyStrip_eq_self
    · intro c hc
      exact (Option.some.inj hc) ▸ (show isPyWs 'h' = false by decide)
    · intro c hc
      rw [getLast?_append_right (by simp)] at hc
      rw [show (('/' :: (kRaw ++ ('/' :: (cd ++ ['/'])))) : Str)
          = ['/'] ++ (kRaw ++ ('/' :: (cd ++ ['/']))) from rfl] at hc
      rw [getLast?_append_right (by simp), getLast?_append_right (by simp)] at hc
      rw [show (('/' :: (cd ++ ['/'])) : Str) = ['/'] ++ (cd ++ ['/']) from rfl] at hc
      rw [getLast?_append_right (by simp), getLast?_append_right (by simp)] at hc
      exact (Option.some.inj hc) ▸ (show isPyWs '/' = false by decide)
  have hin : instagram_normalize_url (s2l "https://www.instagram.com"
      ++ ('/' :: (kRaw ++ ('/' :: (cd ++ ['/']))))) =
      (match reSearch igMatchAt (pyStrip (s2l "https://www.instagram.com"
          ++ ('/' :: (kRaw ++ ('/' :: (cd ++ ['/'])))))) with
       | some (g0, _, _) =>
         s2l "https://www.instagram.com"
           ++ (urlparseM (if g0.getLast? = some '/' then g0 else g0 ++ ['/'])).path
       | none => pyStrip (s2l "https://www.instagram.com"
           ++ ('/' :: (kRaw ++ ('/' :: (cd ++ ['/'])))))) := rfl
  rw [hin, hstrip, reSearch_of_matchAt (igMatchAt_canon hk hcd1 hcd2)]
  show s2l "https://www.instagram.com"
      ++ (urlparseM (if (s2l "https://www.instagram.com"
            ++ ('/' :: (kRaw ++ ('/' :: cd)))).getLast? = some '/'
          then s2l "https://www.instagram.com" ++ ('/' :: (kRaw ++ ('/' :: cd)))
          else (s2l "https://www.instagram.com" ++ ('/' :: (kRaw ++ ('/' :: cd)))) ++ ['/'])).path
      = _
  have hlast2 : ¬ ((s2l "https://www.instagram.com"
      ++ ('/' :: (kRaw ++ ('/' :: cd)))).getLast? = some '/') := by
    rw [getLast?_append_right (by simp)]
    rw [show (('/' :: (kRaw ++ ('/' :: cd))) : Str) = ['/'] ++ (kRaw ++ ('/' :: cd)) from rfl]
    rw [getLast?_append_right (by simp), getLast?_append_right (by simp)]
    rw [show (('/' :: cd) : Str) = ['/'] ++ cd from rfl]
    rw [getLast?_append_right hcd1]
    exact codeC_last_ne_slash hcd2
  rw [if_neg hlast2]
  have hfm2 : (s2l "https://www.instagram.com" ++ ('/' :: (kRaw ++ ('/' :: cd)))) ++ ['/']
      = s2l "https" ++ ':' :: '/' :: '/'
        :: (s2l "www.instagram.com" ++ ('/' :: (kRaw ++ ('/' :: (cd ++ ['/']))))) := by
    simp [List.append_assoc]
    rfl
  have hc0 : ∀ c ∈ s2l "https" ++ ':' :: '/' :: '/'
      :: (s2l "www.instagram.com" ++ ('/' :: (kRaw ++ ('/' :: (cd ++ ['/']))))),
      isC0OrSpace c = false := by
    intro c hc
    rcases List.mem_append.mp hc with hcs | hcs
    · exact (by decide : ∀ x ∈ (s2l "https" : Str), isC0OrSpace x = false) c hcs
    rcases List.mem_cons.mp hcs with rfl | hcs
    · decide
    rcases List.mem_cons.mp hcs with rfl | hcs
    · decide
    rcases List.mem_cons.mp hcs with rfl | hcs
    · decide
    rcases List.mem_append.mp hcs with hcs | hcs
    · exact (by decide : ∀ x ∈ (s2l "www.instagram.com" : Str), isC0OrSpace x = false) c hcs
    · exact hpf2 c hcs
  have hup2 := urlparse_schemeHostPath
      (by decide : (s2l "https" : Str) ≠ [])
      (by decide : ∀ c ∈ (s2l "https" : Str), isAlphaC c = true)
      (by decide : ∀ c ∈ (s2l "www.instagram.com" : Str), isNetlocEnd c = false)
      (rfl : (('/' :: (kRaw ++ ('/' :: (cd ++ ['/'])))) : Str).head? = some '/') hpf1 hc0
  rw [hfm2, hup2]

theorem instagram_norm_idem (url : Str) :
    instagram_normalize_url (instagram_normalize_url url) = instagram_normalize_url url := by
  cases h : reSearch igMatchAt (pyStrip url) with
  | none =>
    have hin : instagram_normalize_url url =
        (match reSearch igMatchAt (pyStrip url) with
         | some (g0, _, _) =>
           s2l "https://www.instagram.com"
             ++ (urlparseM (if g0.getLast? = some '/' then g0 else g0 ++ ['/'])).path
         | none => pyStrip url) := rfl
    have hout : instagram_normalize_url url = pyStrip url := by
      rw [hin, h]
    rw [hout]
    have hin2 : instagram_normalize_url (pyStrip url) =
        (match reSearch igMatchAt (pyStrip (pyStrip url)) with
         | some (g0, _, _) =>
           s2l "https://www.instagram.com"
             ++ (urlparseM (if g0.getLast? = some '/' then g0 else g0 ++ ['/'])).path
         | none => pyStrip (pyStrip url)) := rfl
    rw [hin2, pyStrip_idem, h]
  | some v =>
    obtain ⟨g0, r, cd⟩ := v
    obtain ⟨kRaw, hk, hcd1, hcd2, hout⟩ := instagram_norm_some h
    rw [hout]
    exact instagram_norm_canonFix hk hcd1 hcd2

theorem litCI_head {p0 : Char} {ps s a r : Str} (h : litCI (p0 :: ps) s = some (a, r)) :
    ∃ c cs, s = c :: cs ∧ lowerEq p0 c = true := by
  cases s with
  | nil => simp [litCI] at h
  | cons c cs =>
    refine ⟨c, cs, rfl, ?_⟩
    by_cases hl : lowerEq p0 c = true
    · exact hl
    · unfold litCI at h
      rw [if_neg hl] at h
      exact Option.noConfusion h

theorem ttFullMatchAt_sound {s g0 r u d : Str} (h : ttFullMatchAt s = some (g0, r, u, d)) :
    u ≠ [] ∧ (∀ c ∈ u, c ≠ '/') ∧ d ≠ [] ∧ (∀ c ∈ d, isDigitC c = true) := by
  unfold ttFullMatchAt at h
  simp only [Option.pure_def, Option.bind_eq_bind] at h
  cases h1 : litCI (s2l "http") s with
  | none => rw [h1] at h; cases h
  | some v1 =>
    rw [h1] at h
    obtain ⟨a1, r1⟩ := v1
    simp only [Option.some_bind] at h
    cases h3 : litCI (s2l "://") (optCI (s2l "s") (a1, r1).2).2 with
    | none => rw [h3] at h; cases h
    | some v3 =>
      rw [h3] at h
      obtain ⟨a3, r3⟩ := v3
      simp only [Option.some_bind] at h
      cases h5 : litCI (s2l "tiktok.com/@") (optCI (s2l "www.") (a3, r3).2).2 with
      | none => rw [h5] at h; cases h
      | some v5 =>
        rw [h5] at h
        obtain ⟨a5, r5⟩ := v5
        simp only [Option.some_bind] at h
        cases h6 : takeWhile1 (fun c => decide (c ≠ '/')) (a5, r5).2 with
        | none => rw [h6] at h; cases h
        | some v6 =>
          rw [h6] at h
          obtain ⟨u', r6⟩ := v6
          simp only [Option.some_bind] at h
          cases h7 : litCI (s2l "/video/") (u', r6).2 with
          | none => rw [h7] at h; cases h
          | some v7 =>
            rw [h7] at h
            obtain ⟨a7, r7⟩ := v7
            simp only [Option.some_bind] at h
            cases h8 : takeWhile1 isDigitC (a7, r7).2 with
            | none => rw [h8] at h; cases h
            | some v8 =>
              rw [h8] at h
              obtain ⟨d', r8⟩ := v8
              simp only [Option.some_bind, Option.some.injEq, Prod.mk.injEq] at h
              obtain ⟨-, -, hu, hd⟩ := h
              obtain ⟨hu1, hu2, -⟩ := takeWhile1_sound h6
              obtain ⟨hd1, hd2, -⟩ := takeWhile1_sound h8
              subst hu; subst hd
              refine ⟨hu1, ?_, hd1, hd2⟩
              intro c hc
              exact of_decide_eq_true (hu2 c hc)

theorem ttFullMatchAt_canon {u d : Str} (hu : u ≠ []) (hu2 : ∀ c ∈ u, c ≠ '/')
    (hd : d ≠ []) (hd2 : ∀ c ∈ d, isDigitC c = true) :
    ttFullMatchAt (s2l "https://www.tiktok.com/@" ++ (u ++ (s2l "/video/" ++ d)))
      = some (s2l "https://www.tiktok.com/@" ++ (u ++ (s2l "/video/" ++ d)), [], u, d) := by
  have e1 : s2l "https://www.tiktok.com/@" ++ (u ++ (s2l "/video/" ++ d))
      = s2l "http" ++ (s2l "s://www.tiktok.com/@" ++ (u ++ (s2l "/video/" ++ d))) := rfl
  have e2 : s2l "s://www.tiktok.com/@" ++ (u ++ (s2l "/video/" ++ d))
      = s2l "s" ++ (s2l "://www.tiktok.com/@" ++ (u ++ (s2l "/video/" ++ d))) := rfl
  rw [e1]
  unfold ttFullMatchAt
  rw [litCI_self]
  simp only [Option.pure_def, Option.bind_eq_bind, Option.some_bind]
  rw [e2, optCI_self,
    show (s2l "://www.tiktok.com/@" ++ (u ++ (s2l "/video/" ++ d)))
      = s2l "://" ++ (s2l "www.tiktok.com/@" ++ (u ++ (s2l "/video/" ++ d))) from rfl,
    litCI_self]
  simp only [Option.some_bind]
  rw [show (s2l "www.tiktok.com/@" ++ (u ++ (s2l "/video/" ++ d)))
      = s2l "www." ++ (s2l "tiktok.com/@" ++ (u ++ (s2l "/video/" ++ d))) from rfl,
    optCI_self, litCI_self]
  simp only [Option.some_bind]
  rw [takeWhile1_append hu (by intro c hc; simpa using hu2 c hc)
      (by intro c hc; rw [show s2l "/video/" ++ d = '/' :: (s2l "video/" ++ d) from rfl] at hc;
          simp only [List.head?_cons, Option.some.injEq] at hc; subst hc; decide)]
  simp only [Option.some_bind]
  rw [litCI_self]
  simp only [Option.some_bind]
  rw [takeWhile1_all hd hd2]
  simp only [Option.some_bind]
  simp [List.append_assoc]

theorem ttShort_shape {t g0 r cd : Str} (h : ttShortMatchAt t = some (g0, r, cd)) :
    ∃ hp c rest, t = hp ++ (':' :: '/' :: '/' :: c :: rest) ∧ lowerEq 'v' c = true := by
  unfold ttShortMatchAt at h
  simp only [Option.pure_def, Option.bind_eq_bind] at h
  cases h1 : litCI (s2l "http") t with
  | none => rw [h1] at h; cases h
  | some v1 =>
    rw [h1] at h
    obtain ⟨a1, r1⟩ := v1
    simp only [Option.some_bind] at h
    cases h3 : litCI (s2l "://") (optCI (s2l "s") (a1, r1).2).2 with
    | none => rw [h3] at h; cases h
    | some v3 =>
      rw [h3] at h
      obtain ⟨a3, r3⟩ := v3
      simp only [Option.some_bind] at h
      cases h4 : (match litCI (s2l "vm.tiktok.com/") (a3, r3).2 with
                  | some v => some v
                  | none => litCI (s2l "vt.tiktok.com/") (a3, r3).2) with
      | none => rw [h4] at h; cases h
      | some v4 =>
        have ht1 : t = a1 ++ r1 := litCI_append h1
        obtain ⟨⟨a2, r2⟩, hoc⟩ : ∃ p, optCI (s2l "s") r1 = p := ⟨_, rfl⟩
        have hr1 : r1 = a2 ++ r2 := (optCI_sound hoc).1
        have h3' : litCI (s2l "://") r2 = some (a3, r3) := by
          have : (optCI (s2l "s") (a1, r1).2).2 = r2 := by rw [hoc]
          rw [← this]; exact h3
        have hex := litCI_exact (by decide) h3'
        obtain ⟨v0, cs4, hr3c, hlow⟩ : ∃ v0 cs4, r3 = v0 :: cs4 ∧ lowerEq 'v' v0 = true := by
          cases hvm : litCI (s2l "vm.tiktok.com/") (a3, r3).2 with
          | some vv =>
            obtain ⟨a4, r4⟩ := vv
            have := litCI_head (show litCI ('v' :: s2l "m.tiktok.com/") r3 = some (a4, r4)
              from hvm)
            obtain ⟨c0, cs0, hc0, hl0⟩ := this
            exact ⟨c0, cs0, hc0, hl0⟩
          | none =>
            rw [hvm] at h4
            cases hvt : litCI (s2l "vt.tiktok.com/") (a3, r3).2 with
            | none => rw [hvt] at h4; cases h4
            | some vv =>
              obtain ⟨a4, r4⟩ := vv
              have := litCI_head (show litCI ('v' :: s2l "t.tiktok.com/") r3 = some (a4, r4)
                from hvt)
              obtain ⟨c0, cs0, hc0, hl0⟩ := this
              exact ⟨c0, cs0, hc0, hl0⟩
        refine ⟨a1 ++ a2, v0, cs4, ?_, hlow⟩
        rw [ht1, hr1, hex.2, hr3c]
        simp [List.append_assoc]
        rfl

theorem tt_canon_colon_suffix {u d : Str} (hu2 : ∀ c ∈ u, c ≠ '/')
    (hd2 : ∀ c ∈ d, isDigitC c = true) :
    ∀ s, s <:+ (s2l "https://www.tiktok.com/@" ++ (u ++ (s2l "/video/" ++ d))) →
      ∀ c rest, s = ':' :: '/' :: '/' :: c :: rest → lowerEq 'v' c = false := by
  intro s hs c rest heq
  rcases suffix_append_split hs with ⟨x1, hx1, hx1ne, hseq⟩ | hs2
  · subst hseq
    cases x1 with
    | nil => exact absurd rfl hx1ne
    | cons hx x1t =>
      have hhx : hx = ':' := by
        have h0 := congrArg List.head? heq
        simpa using h0
      have honly : ∀ w ∈ (s2l "https://www.tiktok.com/@" : Str).tails,
          w.head? = some ':' → w = s2l "://www.tiktok.com/@" := by decide
      have hx1eq : hx :: x1t = s2l "://www.tiktok.com/@" :=
        honly _ ((List.mem_tails _ _).mpr hx1) (by rw [hhx]; rfl)
      rw [hx1eq] at heq
      rw [show (s2l "://www.tiktok.com/@" ++ (u ++ (s2l "/video/" ++ d)) : Str)
          = ':' :: '/' :: '/' :: 'w' :: (s2l "ww.tiktok.com/@" ++ (u ++ (s2l "/video/" ++ d)))
          from rfl] at heq
      simp only [List.cons.injEq, true_and] at heq
      rw [← heq.1]
      decide
  · rcases suffix_append_split hs2 with ⟨x2, hx2, hx2ne, hseq⟩ | hs3
    · subst hseq
      cases x2 with
      | nil => exact absurd rfl hx2ne
      | cons hx x2t =>
        cases x2t with
        | nil =>
          rw [show (([hx] : Str) ++ (s2l "/video/" ++ d))
              = hx :: '/' :: 'v' :: (s2l "ideo/" ++ d) from rfl] at heq
          simp only [List.cons.injEq, true_and] at heq
          exact absurd heq.2.1 (by decide)
        | cons y x2tt =>
          have hyu : y ∈ u := hx2.subset (by simp)
          have heq2 : y = '/' := by
            simp only [List.cons_append, List.cons.injEq, true_and] at heq
            exact heq.2.1
          exact absurd heq2 (hu2 y hyu)
    · rcases suffix_append_split hs3 with ⟨x3, hx3, hx3ne, hseq⟩ | hs4
      · subst hseq
        cases x3 with
        | nil => exact absurd rfl hx3ne
        | cons hx x3t =>
          have hhx : hx = ':' := by
            have h0 := congrArg List.head? heq
            simpa using h0
          have hnone : ∀ w ∈ (s2l "/video/" : Str).tails, ¬ w.head? = some ':' := by decide
          exact absurd (show (hx :: x3t).head? = some ':' by rw [hhx]; rfl)
            (hnone _ ((List.mem_tails _ _).mpr hx3))
      · rw [heq] at hs4
        have hmem : (':' : Char) ∈ d := hs4.subset (by simp)
        exact absurd (hd2 ':' hmem) (by decide)

theorem tt_expand_isSome {hr : Str → Option Str} {s e : Str}
    (h : tt_expand_short_url hr s = some e) : (reSearch ttFullMatchAt e).isSome = true := by
  unfold tt_expand_short_url at h
  cases hhr : hr s with
  | none => rw [hhr] at h; cases h
  | some f =>
    rw [hhr] at h
    replace h : (if (reSearch ttFullMatchAt f).isSome = true then some f
        else (none : Option Str)) = some e := h
    by_cases hi : (reSearch ttFullMatchAt f).isSome = true
    · rw [if_pos hi] at h
      have : f = e := Option.some.inj h
      rw [← this]; exact hi
    · rw [if_neg hi] at h; cases h

theorem tt_canon_noShort {u d : Str} (hu2 : ∀ c ∈ u, c ≠ '/')
    (hd2 : ∀ c ∈ d, isDigitC c = true) :
    reSearch ttShortMatchAt (s2l "https://www.tiktok.com/@" ++ (u ++ (s2l "/video/" ++ d)))
      = none := by
  apply reSearch_eq_none
  intro t ht
  cases hm : ttShortMatchAt t with
  | none => rfl
  | some g =>
    obtain ⟨g0, r, cd⟩ := g
    obtain ⟨hp, c, rest, hteq, hlo⟩ := ttShort_shape hm
    have hsuf : (':' :: '/' :: '/' :: c :: rest) <:+ t := ⟨hp, hteq.symm⟩
    have hfalse := tt_canon_colon_suffix hu2 hd2 _ (hsuf.trans ht) c rest rfl
    rw [hfalse] at hlo
    cases hlo

theorem ttPre_stable {hr : Str → Option Str} {url : Str}
    (h : reSearch ttFullMatchAt (ttPre hr url) = none) :
    ttPre hr (ttPre hr url) = ttPre hr url := by
  by_cases hs : (reSearch ttShortMatchAt (pyStrip url)).isSome = true
  · cases hexp : tt_expand_short_url hr (pyStrip url) with
    | some e =>
      exfalso
      have hP : ttPre hr url = e := by unfold ttPre; rw [if_pos hs, hexp]
      have hiS := tt_expand_isSome hexp
      rw [← hP, h] at hiS
      cases hiS
    | none =>
      have hP : ttPre hr url = pyStrip url := by unfold ttPre; rw [if_pos hs, hexp]
      rw [hP]
      unfold ttPre
      rw [pyStrip_idem, if_pos hs, hexp]
  · have hP : ttPre hr url = pyStrip url := by unfold ttPre; rw [if_neg hs]
    rw [hP]
    unfold ttPre
    rw [pyStrip_idem, if_neg hs]

theorem tiktok_norm_canon {hr : Str → Option Str} {u d : Str} (hu : u ≠ [])
    (hu2 : ∀ c ∈ u, c ≠ '/') (hd : d ≠ []) (hd2 : ∀ c ∈ d, isDigitC c = true) :
    tiktok_normalize_url hr (s2l "https://www.tiktok.com/@" ++ u ++ s2l "/video/" ++ d)
      = s2l "https://www.tiktok.com/@" ++ u ++ s2l "/video/" ++ d := by
  have e : s2l "https://www.tiktok.com/@" ++ u ++ s2l "/video/" ++ d
      = s2l "https://www.tiktok.com/@" ++ (u ++ (s2l "/video/" ++ d)) := by
    simp [List.append_assoc]
  rw [e]
  have hstrip : pyStrip (s2l "https://www.tiktok.com/@" ++ (u ++ (s2l "/video/" ++ d)))
      = s2l "https://www.tiktok.com/@" ++ (u ++ (s2l "/video/" ++ d)) := by
    apply pyStrip_eq_self
    · intro c hc
      rw [show (s2l "https://www.tiktok.com/@" ++ (u ++ (s2l "/video/" ++ d)))
          = 'h' :: (s2l "ttps://www.tiktok.com/@" ++ (u ++ (s2l "/video/" ++ d))) from rfl] at hc
      simp only [List.head?_cons, Option.some.injEq] at hc
      subst hc; decide
    · intro c hc
      rw [getLast?_append_right (by simp [hd]),
          getLast?_append_right (by simp [hd]),
          getLast?_append_right hd] at hc
      exact digit_not_ws (hd2 c (List.mem_of_mem_getLast? hc))
  have hpre : ttPre hr (s2l "https://www.tiktok.com/@" ++ (u ++ (s2l "/video/" ++ d)))
      = s2l "https://www.tiktok.com/@" ++ (u ++ (s2l "/video/" ++ d)) := by
    unfold ttPre
    rw [hstrip, tt_canon_noShort hu2 hd2]
    rfl
  have hnorm : tiktok_normalize_url hr (s2l "https://www.tiktok.com/@"
      ++ (u ++ (s2l "/video/" ++ d))) =
      (match reSearch ttFullMatchAt (ttPre hr (s2l "https://www.tiktok.com/@"
          ++ (u ++ (s2l "/video/" ++ d)))) with
       | some (_, _, u, d) => s2l "https://www.tiktok.com/@" ++ u ++ s2l "/video/" ++ d
       | none => ttPre hr (s2l "https://www.tiktok.com/@" ++ (u ++ (s2l "/video/" ++ d)))) :=
    rfl
  rw [hnorm, hpre, reSearch_of_matchAt (ttFullMatchAt_canon hu hu2 hd hd2)]
  simp [List.append_assoc]

theorem tiktok_norm_idem (hr : Str → Option Str) (url : Str) :
    tiktok_normalize_url hr (tiktok_normalize_url hr url) = tiktok_normalize_url hr url := by
  have hnorm : ∀ v, tiktok_normalize_url hr v =
      (match reSearch ttFullMatchAt (ttPre hr v) with
       | some (_, _, u, d) => s2l "https://www.tiktok.com/@" ++ u ++ s2l "/video/" ++ d
       | none => ttPre hr v) := fun v => rfl
  cases hfull : reSearch ttFullMatchAt (ttPre hr url) with
  | some v =>
    obtain ⟨g0, r, u, d⟩ := v
    rw [hnorm url, hfull]
    obtain ⟨t, -, hmt⟩ := reSearch_some hfull
    obtain ⟨hu, hu2, hd, hd2⟩ := ttFullMatchAt_sound hmt
    exact tiktok_norm_canon hu hu2 hd hd2
  | none =>
    rw [hnorm url, hfull, hnorm (ttPre hr url), ttPre_stable hfull, hfull]

theorem bskyMatchAt_h_ne {s g0 r h i : Str} (hm : bskyMatchAt s = some (g0, r, h, i)) :
    h ≠ [] := by
  unfold bskyMatchAt at hm
  simp only [Option.pure_def, Option.bind_eq_bind] at hm
  cases h1 : litCI (s2l "http") s with
  | none => rw [h1] at hm; cases hm
  | some v1 =>
    rw [h1] at hm
    obtain ⟨a1, r1⟩ := v1
    simp only [Option.some_bind] at hm
    cases h3 : litCI (s2l "://bsky.app/profile/") (optCI (s2l "s") (a1, r1).2).2 with
    | none => rw [h3] at hm; cases hm
    | some v3 =>
      rw [h3] at hm
      obtain ⟨a3, r3⟩ := v3
      simp only [Option.some_bind] at hm
      cases h4 : takeWhile1 (fun c => decide (c ≠ '/')) (a3, r3).2 with
      | none => rw [h4] at hm; cases hm
      | some v4 =>
        rw [h4] at hm
        obtain ⟨h', r4⟩ := v4
        simp only [Option.some_bind] at hm
        cases h5 : litCI (s2l "/post/") (h', r4).2 with
        | none => rw [h5] at hm; cases hm
        | some v5 =>
          rw [h5] at hm
          obtain ⟨a5, r5⟩ := v5
          simp only [Option.some_bind] at hm
          cases h6 : takeWhile1 isAlnumC (a5, r5).2 with
          | none => rw [h6] at hm; cases hm
          | some v6 =>
            rw [h6] at hm
            obtain ⟨i', r6⟩ := v6
            simp only [Option.some_bind, Option.some.injEq, Prod.mk.injEq] at hm
            obtain ⟨-, -, hh, -⟩ := hm
            obtain ⟨hne, -, -⟩ := takeWhile1_sound h4
            rw [hh] at hne
            exact hne

theorem fbAuthorMatchAt_u_ne {s g0 r u : Str} (hm : fbAuthorMatchAt s = some (g0, r, u)) :
    u ≠ [] := by
  unfold fbAuthorMatchAt at hm
  simp only [Option.pure_def, Option.bind_eq_bind] at hm
  cases h1 : litCI (s2l "facebook.com/") s with
  | none => rw [h1] at hm; cases hm
  | some v1 =>
    rw [h1] at hm
    obtain ⟨a1, r1⟩ := v1
    simp only [Option.some_bind] at hm
    cases h2 : takeWhile1 (fun c => decide (c ≠ '/')) (a1, r1).2 with
    | none => rw [h2] at hm; cases hm
    | some v2 =>
      rw [h2] at hm
      obtain ⟨u', r2⟩ := v2
      simp only [Option.some_bind] at hm
      cases h3 : litCI (s2l "/") (u', r2).2 with
      | none => rw [h3] at hm; cases hm
      | some v3 =>
        rw [h3] at hm
        obtain ⟨sl, r3⟩ := v3
        simp only [Option.some_bind] at hm
        cases h4 : (match litCI (s2l "posts") (sl, r3).2 with
                    | some v => some v
                    | none => litCI (s2l "videos") (sl, r3).2) with
        | none => rw [h4] at hm; cases hm
        | some v4 =>
          rw [h4] at hm
          obtain ⟨k, r4⟩ := v4
          simp only [Option.some_bind] at hm
          cases h5 : litCI (s2l "/") (k, r4).2 with
          | none => rw [h5] at hm; cases hm
          | some v5 =>
            rw [h5] at hm
            obtain ⟨sl2, r5⟩ := v5
            simp only [Option.some_bind, Option.some.injEq, Prod.mk.injEq] at hm
            obtain ⟨-, -, hu⟩ := hm
            obtain ⟨hne, -, -⟩ := takeWhile1_sound h2
            rw [hu] at hne
            exact hne

theorem bluesky_author_ne (resolver : Str → Option Str) (url : Str) :
    bluesky_extract_author resolver url ≠ [] := by
  unfold bluesky_extract_author
  cases hm : reSearch bskyMatchAt url with
  | none => show (s2l "unknown" : Str) ≠ []; decide
  | some v =>
    obtain ⟨g0, r, h, i⟩ := v
    show (if didMatch h = true then
      (match resolver h with
       | some rr => if rr.isEmpty then h else rr
       | none => h) else h) ≠ []
    obtain ⟨t, -, hmt⟩ := reSearch_some hm
    have hh := bskyMatchAt_h_ne hmt
    by_cases hd : didMatch h = true
    · rw [if_pos hd]
      cases hres : resolver h with
      | none => exact hh
      | some rr =>
        show (if rr.isEmpty = true then h else rr) ≠ []
        by_cases hre : rr.isEmpty = true
        · rw [if_pos hre]; exact hh
        · rw [if_neg hre]
          intro hc
          rw [hc] at hre
          exact hre rfl
    · rw [if_neg hd]; exact hh

theorem twitter_author_ne (url : Str) : twitter_extract_author url ≠ [] := by
  unfold twitter_extract_author
  cases hm : reSearch twMatchAt url with
  | none => decide
  | some v =>
    obtain ⟨g0, r, u, d⟩ := v
    show ('@' :: u) ≠ []
    simp

theorem tiktok_author_ne (url : Str) : tiktok_extract_author url ≠ [] := by
  unfold tiktok_extract_author
  cases hm : reSearch ttFullMatchAt url with
  | none => decide
  | some v =>
    obtain ⟨g0, r, u, d⟩ := v
    show ('@' :: u) ≠ []
    simp

theorem instagram_author_ne (url : Str) : instagram_extract_author url ≠ [] := by
  unfold instagram_extract_author
  by_cases hm : (reSearch igMatchAt url).isSome = true
  · rw [if_pos hm]; decide
  · rw [if_neg hm]; decide

theorem facebook_author_ne (url : Str) : facebook_extract_author url ≠ [] := by
  unfold facebook_extract_author
  cases hm : reSearch fbAuthorMatchAt url with
  | none => decide
  | some v =>
    obtain ⟨g0, r, u⟩ := v
    show (if ([s2l "permalink.php", s2l "photo.php", s2l "watch", s2l "reel",
        s2l "stories"]).contains u = true then s2l "(see post)" else u) ≠ []
    obtain ⟨t, -, hmt⟩ := reSearch_some hm
    have hu := fbAuthorMatchAt_u_ne hmt
    by_cases hc : ([s2l "permalink.php", s2l "photo.php", s2l "watch", s2l "reel",
        s2l "stories"]).contains u = true
    · rw [if_pos hc]; decide
    · rw [if_neg hc]; exact hu

theorem stripWwwAll_no_occur : ∀ {s : Str}, hasSubstr (s2l "www.") s = false →
    stripWwwAll s = s := by
  intro s
  induction s using stripWwwAll.induct with
  | case1 t ih =>
    intro h
    exfalso
    rw [hasSubstr] at h
    simp only [Bool.or_eq_false_iff] at h
    have : (s2l "www.").isPrefixOf ('w' :: 'w' :: 'w' :: '.' :: t) = true := by
      simp [List.isPrefixOf]
    rw [this] at h
    exact Bool.noConfusion h.1
  | case2 c t hne ih =>
    intro h
    rw [hasSubstr] at h
    simp only [Bool.or_eq_false_iff] at h
    rw [stripWwwAll.eq_def]
    split
    · rename_i t1 heq
      injection heq with h1 h2
      exact (hne t1 h1 h2).elim
    · rename_i hna heq
      injection heq with h1 h2
      rw [← h1, ← h2, ih h.2]
    · rename_i heq
      exact List.noConfusion heq
  | case3 => intro h; rfl

theorem contains_iff {l : List Str} {x : Str} : l.contains x = true ↔ x ∈ l :=
  List.elem_iff

theorem create_embed_post_url (P : Platform) (now : Str × Str)
    (pu au t : Str) (pub sm : Option Str) :
    (create_embed P now pu au t pub sm).post_url = P.normalize_url pu := rfl

theorem processLoop_nodup (P : Platform) (now : Str × Str) (au t : Str)
    (pub sm : Option Str)
    (hidem : ∀ u, P.normalize_url (P.normalize_url u) = P.normalize_url u) :
    ∀ cs seen,
      (((processLoop P now au t pub sm cs seen).map (fun e => e.post_url)).Nodup)
      ∧ (∀ x ∈ (processLoop P now au t pub sm cs seen).map (fun e => e.post_url),
          seen.contains x = false) := by
  intro cs
  induction cs with
  | nil =>
    intro seen
    refine ⟨by simp [processLoop], ?_⟩
    intro x hx
    simp [processLoop] at hx
  | cons c cs ih =>
    intro seen
    by_cases hc : seen.contains (P.normalize_url c) = true
    · rw [show processLoop P now au t pub sm (c :: cs) seen
          = processLoop P now au t pub sm cs seen by rw [processLoop, if_pos hc]]
      exact ih seen
    · have hc' : seen.contains (P.normalize_url c) = false :=
        Bool.not_eq_true _ ▸ Bool.of_not_eq_true hc
      rw [show processLoop P now au t pub sm (c :: cs) seen
          = create_embed P now (P.normalize_url c) au t pub sm ::
            processLoop P now au t pub sm cs (P.normalize_url c :: seen)
          by rw [processLoop, if_neg hc]]
      obtain ⟨hnd, hnin⟩ := ih (P.normalize_url c :: seen)
      rw [List.map_cons, create_embed_post_url, hidem]
      constructor
      · rw [List.nodup_cons]
        refine ⟨?_, hnd⟩
        intro hmem
        have := hnin _ hmem
        rw [List.contains_cons] at this
        simp at this
      · intro x hx
        rcases List.mem_cons.mp hx with rfl | hx2
        · exact hc'
        · have := hnin x hx2
          rw [List.contains_cons, Bool.or_eq_false_iff] at this
          exact this.2

theorem write_embeds_all_new {embeds : List EmbedPost} {s : Sheet}
    (hne : embeds ≠ []) (hap : s.appendFails = false)
    (hnew : ∀ e ∈ embeds, (get_existing_post_urls s).contains e.post_url = false) :
    write_embeds_batch embeds s = ((embeds.length, 0), embeds.map to_sheet_row) := by
  have hie : embeds.isEmpty = false := List.isEmpty_eq_false.mpr hne
  have hfil : embeds.filter (fun e => !(get_existing_post_urls s).contains e.post_url)
      = embeds := by
    apply List.filter_eq_self.mpr
    intro e he
    rw [hnew e he]
    rfl
  simp only [write_embeds_batch]
  rw [hie, hfil, Nat.sub_self, hie, hap]
  rw [if_neg Bool.false_ne_true, if_neg Bool.false_ne_true, if_neg Bool.false_ne_true]

/-! The claims.  Each claim of CLAIMS.json gets one theorem; corrected
claims additionally get a concrete counterexample against the original
wording, and hypothesis-bearing theorems get a closed witness. -/

set_option maxRecDepth 100000 in
/-- C1 (amended).  Processing one article whose HTML contains a Bluesky
embed blockquote citing `at://did:plc:abc123/app.bsky.feed.post/xyz` and a
plain-text mention of `https://bsky.app/profile/alice.bsky.social/post/xyz`
yields exactly one record, with platform `bluesky` and repost status
`pending`, whose post URL is the at:// URI converted to the canonical web
form.  The single record arises because the detector never scans raw text
for bsky.app URLs, so the plain-text mention is not a candidate at all —
not because the two candidates normalize to one canonical URL. -/
theorem claim_C1 :
    (process_article (blueskyPlatform (fun _ => none)) (s2l "2026-10-12", s2l "00:00:00")
        [.elem (s2l "article") []
          [.elem (s2l "blockquote")
             [(s2l "class", s2l "bluesky-embed"),
              (s2l "data-bluesky-uri", s2l "at://did:plc:abc123/app.bsky.feed.post/xyz")]
             [.elem (s2l "p") [] [.text (s2l "A post")]],
           .elem (s2l "p") []
             [.text (s2l "See https://bsky.app/profile/alice.bsky.social/post/xyz for details.")]]]
        (s2l "https://www.example.com/art") (s2l "T") none none).map
      (fun e => (e.post_url, e.platform, (to_sheet_row e).get? 10))
      = [(s2l "https://bsky.app/profile/did:plc:abc123/post/xyz", s2l "bluesky",
          some (s2l "pending"))]
    ∧ at_uri_to_url (s2l "at://did:plc:abc123/app.bsky.feed.post/xyz")
      = some (s2l "https://bsky.app/profile/did:plc:abc123/post/xyz") := by
  exact ⟨by decide, by decide⟩

set_option maxRecDepth 100000 in
/-- C1, counterexample to the original wording: the converted at:// URI and
the plain-text bsky.app URL do NOT normalize to the same canonical URL (the
canonical form keys on the profile segment, DID versus handle, not on the
post id), and the plain-text mention is not among the detector's candidates
for the scenario document. -/
theorem claim_C1_cex :
    bluesky_normalize_url (s2l "https://bsky.app/profile/did:plc:abc123/post/xyz")
      ≠ bluesky_normalize_url (s2l "https://bsky.app/profile/alice.bsky.social/post/xyz")
    ∧ ¬ (s2l "https://bsky.app/profile/alice.bsky.social/post/xyz")
        ∈ bluesky_detect_embeds (extract_article_content
            [.elem (s2l "article") []
              [.elem (s2l "blockquote")
                 [(s2l "class", s2l "bluesky-embed"),
                  (s2l "data-bluesky-uri", s2l "at://did:plc:abc123/app.bsky.feed.post/xyz")]
                 [.elem (s2l "p") [] [.text (s2l "A post")]],
               .elem (s2l "p") []
                 [.text (s2l "See https://bsky.app/profile/alice.bsky.social/post/xyz for details.")]]])
            (s2l "https://www.example.com/art") := by
  exact ⟨by decide, by decide⟩

/-- C2 (amended).  normalize_url is idempotent on every input for the
Twitter, TikTok and Instagram detectors (TikTok short-link expansion
modelled as a fixed redirect function); it is NOT idempotent for the
Bluesky and Facebook detectors, even on URLs accepted by their grammars. -/
theorem claim_C2 :
    (∀ url, twitter_normalize_url (twitter_normalize_url url) = twitter_normalize_url url)
    ∧ (∀ (hr : Str → Option Str) url,
        tiktok_normalize_url hr (tiktok_normalize_url hr url) = tiktok_normalize_url hr url)
    ∧ (∀ url, instagram_normalize_url (instagram_normalize_url url)
        = instagram_normalize_url url) :=
  ⟨twitter_norm_idem, tiktok_norm_idem, instagram_norm_idem⟩

set_option maxRecDepth 100000 in
/-- C2, counterexample to the original wording: the Facebook URL
`https://www.facebook.com/permalink.php?story_fbid=a%26b` is accepted by
the Facebook grammar (it is a content URL), but its normal form
`...story_fbid=a&b` re-normalizes to `...story_fbid=a`:
`parse_qs` decodes `%26` to `&` on the first pass, and the rebuilt query is
reparsed at the `&` on the second. -/
theorem claim_C2_cex :
    fb_is_content_url (s2l "https://www.facebook.com/permalink.php?story_fbid=a%26b") = true
    ∧ facebook_normalize_url (facebook_normalize_url
        (s2l "https://www.facebook.com/permalink.php?story_fbid=a%26b"))
      ≠ facebook_normalize_url (s2l "https://www.facebook.com/permalink.php?story_fbid=a%26b") := by
  exact ⟨by decide, by decide⟩

/-- C3 (amended).  process_article deduplicates candidates on the
normalized URL, but each surviving candidate is normalized a second time by
create_embed, so the records' post_url values are pairwise distinct
whenever the platform's normalize_url is idempotent; for a platform whose
normalizer is not idempotent (Facebook) duplicates can survive. -/
theorem claim_C3 (P : Platform) (now : Str × Str) (doc : List Node)
    (au t : Str) (pub sm : Option Str)
    (hidem : ∀ u, P.normalize_url (P.normalize_url u) = P.normalize_url u) :
    ((process_article P now doc au t pub sm).map (fun e => e.post_url)).Nodup :=
  (processLoop_nodup P now au t pub sm hidem
    (P.detect_embeds (extract_article_content doc) au) []).1

set_option maxRecDepth 100000 in
/-- C3, witness: the Twitter platform's normalizer is idempotent, so a
concrete article yields pairwise-distinct post URLs. -/
theorem claim_C3_witness :
    ((process_article twitterPlatform (s2l "2026-10-12", s2l "00:00:00")
        [.elem (s2l "article") [] [.elem (s2l "a")
            [(s2l "href", s2l "https://twitter.com/bob/status/999?s=20")] [.text (s2l "x")]]]
        (s2l "https://example.com/a") (s2l "T") none none).map (fun e => e.post_url)).Nodup :=
  claim_C3 twitterPlatform (s2l "2026-10-12", s2l "00:00:00")
    [.elem (s2l "article") [] [.elem (s2l "a")
        [(s2l "href", s2l "https://twitter.com/bob/status/999?s=20")] [.text (s2l "x")]]]
    (s2l "https://example.com/a") (s2l "T") none none (fun u => twitter_norm_idem u)

set_option maxRecDepth 100000 in
/-- C3, counterexample to the original wording: one article with two
Facebook permalink anchors (`story_fbid=a%26b` and `story_fbid=a&c`)
produces two records with the SAME post_url, because the two candidates
have distinct first-pass normal forms (used for deduplication) that
collapse under the second normalization applied by create_embed. -/
theorem claim_C3_cex :
    ¬ ((process_article facebookPlatform (s2l "2026-10-12", s2l "00:00:00")
        [.elem (s2l "article") []
          [.elem (s2l "a") [(s2l "href",
              s2l "https://facebook.com/permalink.php?story_fbid=a%26b")] [.text (s2l "one")],
           .elem (s2l "a") [(s2l "href",
              s2l "https://www.facebook.com/permalink.php?story_fbid=a&c")] [.text (s2l "two")]]]
        (s2l "https://n.example.com/a") (s2l "T") none none).map (fun e => e.post_url)).Nodup := by
  decide

set_option maxRecDepth 100000 in
/-- C4.  With `https://x.com/bob/status/999` already in the log's post-URL
column, the batch built from the raw candidate
`https://twitter.com/bob/status/999?s=20` is classified entirely as
duplicate: the Twitter normalizer maps the raw URL to the canonical
`https://x.com/bob/status/999` (query dropped, twitter.com replaced by
x.com), and write_embeds_batch returns written=0, skipped=1 and appends
nothing. -/
theorem claim_C4 :
    twitter_normalize_url (s2l "https://twitter.com/bob/status/999?s=20")
      = s2l "https://x.com/bob/status/999"
    ∧ write_embeds_batch
        [create_embed twitterPlatform (s2l "2026-10-12", s2l "00:00:00")
          (s2l "https://twitter.com/bob/status/999?s=20")
          (s2l "https://www.example.com/story") (s2l "T") none none]
        { rows := [[s2l "Post URL"],
                   [[], [], [], [], [], [], s2l "https://x.com/bob/status/999"]],
          readFails := false, appendFails := false }
      = ((0, 1), []) := by
  exact ⟨by decide, by decide⟩

/-- C5.  When the bulk append fails (appendFails, reached on a non-empty
batch with at least one non-duplicate record), write_embeds_batch reports
the whole batch as 0 written / all submitted records skipped and appends
nothing; the exception is absorbed, not propagated. -/
theorem claim_C5 (embeds : List EmbedPost) (s : Sheet) (hne : embeds ≠ [])
    (hap : s.appendFails = true)
    (hnew : (embeds.filter
        (fun e => !(get_existing_post_urls s).contains e.post_url)).isEmpty = false) :
    write_embeds_batch embeds s = ((0, embeds.length), []) := by
  have hie : embeds.isEmpty = false := List.isEmpty_eq_false.mpr hne
  simp only [write_embeds_batch]
  rw [hie, hnew, hap]
  rw [if_neg Bool.false_ne_true, if_neg Bool.false_ne_true, if_pos rfl]

/-- C5, witness: a one-record batch against an empty log with a failing
append reports (0, 1) and appends nothing. -/
theorem claim_C5_witness :
    write_embeds_batch
      [⟨s2l "https://x.com/a/status/1", s2l "@a", s2l "twitter", s2l "https://e.com/a",
        s2l "T", s2l "e.com", s2l "2026-10-12", s2l "00:00:00", none, none⟩]
      { rows := [], readFails := false, appendFails := true } = ((0, 1), []) :=
  claim_C5 _ _ (by decide) rfl (by decide)

/-- C6 (amended).  The record's article_domain is the article URL's host
with EVERY occurrence of the substring `www.` removed (Python
`str.replace("www.", "")`), not only a leading prefix: a host containing no
`www.` occurrence is unchanged, and removal also applies after a leading
`www.` and in the middle of the host. -/
theorem claim_C6 :
    (∀ (P : Platform) (now : Str × Str) (pu au t : Str) (pub sm : Option Str),
        hasSubstr (s2l "www.") (urlparseM au).netloc = false →
        (create_embed P now pu au t pub sm).article_domain = (urlparseM au).netloc)
    ∧ (∀ (P : Platform) (now : Str × Str) (pu au t : Str) (pub sm : Option Str),
        (create_embed P now pu au t pub sm).article_domain
          = stripWwwAll (urlparseM au).netloc)
    ∧ (∀ t : Str, stripWwwAll (s2l "www." ++ t) = stripWwwAll t) := by
  refine ⟨?_, ?_, ?_⟩
  · intro P now pu au t pub sm h
    show stripWwwAll (urlparseM au).netloc = _
    exact stripWwwAll_no_occur h
  · intro P now pu au t pub sm
    rfl
  · intro t
    rfl

set_option maxRecDepth 100000 in
/-- C6, witness: a host without any `www.` occurrence is kept unchanged. -/
theorem claim_C6_witness :
    (create_embed twitterPlatform (s2l "2026-10-12", s2l "00:00:00") (s2l "p")
        (s2l "https://example.com/a") (s2l "T") none none).article_domain
      = (urlparseM (s2l "https://example.com/a")).netloc :=
  claim_C6.1 twitterPlatform (s2l "2026-10-12", s2l "00:00:00") (s2l "p")
    (s2l "https://example.com/a") (s2l "T") none none (by decide)

set_option maxRecDepth 100000 in
/-- C6, counterexample to the original wording: the host
`news.www.example.com` has no leading `www.` prefix, so the claim requires
it unchanged, yet the constructed record's article_domain is
`news.example.com` — the interior `www.` is removed too. -/
theorem claim_C6_cex :
    (urlparseM (s2l "https://news.www.example.com/story")).netloc
      = s2l "news.www.example.com"
    ∧ (create_embed twitterPlatform (s2l "2026-10-12", s2l "00:00:00") (s2l "p")
        (s2l "https://news.www.example.com/story") (s2l "T") none none).article_domain
      = s2l "news.example.com" := by
  exact ⟨by decide, by decide⟩

set_option maxRecDepth 100000 in
/-- C7.  On an article containing a vm.tiktok.com short link and a full
TikTok video link, the TikTok detector with a failing redirect lookup
returns only the full link's candidate (the short candidate is silently
dropped, no exception), while with a working lookup the expanded short link
is also returned. -/
theorem claim_C7 :
    tiktok_detect_embeds (fun _ => none)
      (extract_article_content
        [.elem (s2l "article") []
          [.elem (s2l "a") [(s2l "href", s2l "https://vm.tiktok.com/ZMabc")] [.text (s2l "s")],
           .elem (s2l "a") [(s2l "href", s2l "https://www.tiktok.com/@alice/video/123")]
             [.text (s2l "f")]]])
      (s2l "https://www.example.com/art")
      = [s2l "https://www.tiktok.com/@alice/video/123"]
    ∧ tiktok_detect_embeds
        (fun s => if s = s2l "https://vm.tiktok.com/ZMabc"
          then some (s2l "https://www.tiktok.com/@bob/video/999") else none)
        (extract_article_content
          [.elem (s2l "article") []
            [.elem (s2l "a") [(s2l "href", s2l "https://vm.tiktok.com/ZMabc")] [.text (s2l "s")],
             .elem (s2l "a") [(s2l "href", s2l "https://www.tiktok.com/@alice/video/123")]
               [.text (s2l "f")]]])
        (s2l "https://www.example.com/art")
      = [s2l "https://www.tiktok.com/@bob/video/999",
         s2l "https://www.tiktok.com/@alice/video/123"] := by
  exact ⟨by decide, by decide⟩

/-- C8.  Every platform's extract_author returns a non-empty string on
every input (sentinels `unknown`, `(see post)`, or a captured group that
the pattern guarantees non-empty); in the Bluesky case, when the profile
segment is a DID and resolution fails or yields the empty string, the DID
itself is returned. -/
theorem claim_C8 :
    (∀ (resolver : Str → Option Str) (url : Str),
        bluesky_extract_author resolver url ≠ [])
    ∧ (∀ url, twitter_extract_author url ≠ [])
    ∧ (∀ url, tiktok_extract_author url ≠ [])
    ∧ (∀ url, instagram_extract_author url ≠ [])
    ∧ (∀ url, facebook_extract_author url ≠ [])
    ∧ (∀ (resolver : Str → Option Str) (url g0 r h i : Str),
        reSearch bskyMatchAt url = some (g0, r, h, i) → didMatch h = true →
        (resolver h = none ∨ resolver h = some []) →
        bluesky_extract_author resolver url = h) := by
  refine ⟨bluesky_author_ne, twitter_author_ne, tiktok_author_ne, instagram_author_ne,
    facebook_author_ne, ?_⟩
  intro resolver url g0 r h i hm hd hres
  unfold bluesky_extract_author
  rw [hm]
  show (if didMatch h = true then
    (match resolver h with
     | some rr => if rr.isEmpty then h else rr
     | none => h) else h) = h
  rw [if_pos hd]
  rcases hres with hres | hres
  · rw [hres]
  · rw [hres]
    show (if (([] : Str)).isEmpty = true then h else []) = h
    exact if_pos rfl

set_option maxRecDepth 100000 in
/-- C8, witness: for a DID-profile Bluesky post URL with a failing
resolver, the author is the DID itself. -/
theorem claim_C8_witness :
    bluesky_extract_author (fun _ => none)
      (s2l "https://bsky.app/profile/did:plc:abc123/post/xyz") = s2l "did:plc:abc123" :=
  claim_C8.2.2.2.2.2 (fun _ => none)
    (s2l "https://bsky.app/profile/did:plc:abc123/post/xyz")
    (s2l "https://bsky.app/profile/did:plc:abc123/post/xyz") [] (s2l "did:plc:abc123")
    (s2l "xyz") (by decide) (by decide) (Or.inl rfl)

/-- C9.  When the bulk read of existing post URLs fails,
get_existing_post_urls yields the empty set, so a subsequent non-empty
batch (with working append) is appended in full and counted entirely as
written — duplicate suppression is silently disabled. -/
theorem claim_C9 (embeds : List EmbedPost) (s : Sheet) (hrf : s.readFails = true)
    (hap : s.appendFails = false) (hne : embeds ≠ []) :
    get_existing_post_urls s = []
    ∧ write_embeds_batch embeds s = ((embeds.length, 0), embeds.map to_sheet_row) := by
  have hex : get_existing_post_urls s = [] := by
    unfold get_existing_post_urls
    rw [hrf]
    rfl
  refine ⟨hex, ?_⟩
  apply write_embeds_all_new hne hap
  intro e he
  rw [hex]
  rfl

/-- C9, witness: a record whose post_url is already in the log is appended
again and counted as written when the read fails. -/
theorem claim_C9_witness :
    get_existing_post_urls
      { rows := [[s2l "Post URL"], [[], [], [], [], [], [], s2l "https://x.com/a/status/1"]],
        readFails := true, appendFails := false } = []
    ∧ write_embeds_batch
        [⟨s2l "https://x.com/a/status/1", s2l "@a", s2l "twitter", s2l "https://e.com/a",
          s2l "T", s2l "e.com", s2l "2026-10-12", s2l "00:00:00", none, none⟩]
        { rows := [[s2l "Post URL"], [[], [], [], [], [], [], s2l "https://x.com/a/status/1"]],
          readFails := true, appendFails := false }
      = ((1, 0),
         [to_sheet_row ⟨s2l "https://x.com/a/status/1", s2l "@a", s2l "twitter",
            s2l "https://e.com/a", s2l "T", s2l "e.com", s2l "2026-10-12", s2l "00:00:00",
            none, none⟩]) :=
  claim_C9
    [⟨s2l "https://x.com/a/status/1", s2l "@a", s2l "twitter", s2l "https://e.com/a",
      s2l "T", s2l "e.com", s2l "2026-10-12", s2l "00:00:00", none, none⟩]
    { rows := [[s2l "Post URL"], [[], [], [], [], [], [], s2l "https://x.com/a/status/1"]],
      readFails := true, appendFails := false }
    rfl rfl (by decide)

/-- C10.  write_embeds_batch performs no intra-batch deduplication: two
records with equal post_url not present in the existing-URL set are both
appended as separate rows and both count toward written_count. -/
theorem claim_C10 (e1 e2 : EmbedPost) (s : Sheet) (hap : s.appendFails = false)
    (heq : e2.post_url = e1.post_url)
    (hnin : (get_existing_post_urls s).contains e1.post_url = false) :
    write_embeds_batch [e1, e2] s = ((2, 0), [to_sheet_row e1, to_sheet_row e2]) := by
  apply write_embeds_all_new (by simp) hap
  intro e he
  rcases List.mem_cons.mp he with rfl | he2
  · exact hnin
  · rcases List.mem_cons.mp he2 with rfl | he3
    · rw [heq]; exact hnin
    · cases he3

/-- C10, witness: two records sharing a post_url, against an empty log,
are both written. -/
theorem claim_C10_witness :
    write_embeds_batch
      [⟨s2l "https://x.com/a/status/1", s2l "@a", s2l "twitter", s2l "https://e.com/a",
        s2l "T", s2l "e.com", s2l "2026-10-12", s2l "00:00:00", none, none⟩,
       ⟨s2l "https://x.com/a/status/1", s2l "@a", s2l "twitter", s2l "https://e.com/b",
        s2l "U", s2l "e.com", s2l "2026-10-12", s2l "00:00:00", none, none⟩]
      { rows := [], readFails := false, appendFails := false }
      = ((2, 0),
         [to_sheet_row ⟨s2l "https://x.com/a/status/1", s2l "@a", s2l "twitter",
            s2l "https://e.com/a", s2l "T", s2l "e.com", s2l "2026-10-12", s2l "00:00:00",
            none, none⟩,
          to_sheet_row ⟨s2l "https://x.com/a/status/1", s2l "@a", s2l "twitter",
            s2l "https://e.com/b", s2l "U", s2l "e.com", s2l "2026-10-12", s2l "00:00:00",
            none, none⟩]) :=
  claim_C10
    ⟨s2l "https://x.com/a/status/1", s2l "@a", s2l "twitter", s2l "https://e.com/a",
      s2l "T", s2l "e.com", s2l "2026-10-12", s2l "00:00:00", none, none⟩
    ⟨s2l "https://x.com/a/status/1", s2l "@a", s2l "twitter", s2l "https://e.com/b",
      s2l "U", s2l "e.com", s2l "2026-10-12", s2l "00:00:00", none, none⟩
    { rows := [], readFails := false, appendFails := false }
    rfl rfl rfl
